import Mathlib

/-!
Verification of the relation/set test-fixture generators
(`src/generators/relations.py`, `src/generators/sets.py`).

The Python code is shallowly embedded: every call to the global random
source (`random.sample`, `random.random`, `random.choice`) is replaced by an
explicit oracle argument, and the guarantees the Python standard library
documents for those calls (a sample is a duplicate-free list of the requested
size drawn from the population; `random.random()` lies in `[0,1)`) appear as
hypotheses of the theorems.  Densities (Python floats restricted to `[0,1]`
by the CLI contract) are modelled as rationals; `int(...)` applied to the
non-negative products the code forms is modelled as the floor.  Files are
modelled as lists of lines, each line a list of characters, exactly one line
per `write`-emitted text line.
-/

/-- Code points for which Python's `str.isspace()` is true
(Unicode whitespace plus the bidirectional classes B/S used by CPython). -/
def pySpaceCodes : List Nat :=
  [9, 10, 11, 12, 13, 28, 29, 30, 31, 32, 0x85, 0xA0, 0x1680,
   0x2000, 0x2001, 0x2002, 0x2003, 0x2004, 0x2005, 0x2006, 0x2007,
   0x2008, 0x2009, 0x200A, 0x2028, 0x2029, 0x202F, 0x205F, 0x3000]

/-- Python's `chr(cp).isspace()` from the generator's extension-symbol loop. -/
def pyIsSpace (cp : Nat) : Bool := decide (cp ∈ pySpaceCodes)

/-- Code points of `string.ascii_letters + string.digits + string.punctuation`
in that order: lowercase, uppercase, digits, then the four punctuation blocks
of printable ASCII. -/
def symbolPoolCodes : List Nat :=
  List.range' 97 26 ++ List.range' 65 26 ++ List.range' 48 10 ++
  List.range' 33 15 ++ List.range' 58 7 ++ List.range' 91 6 ++ List.range' 123 4

/-- The 94-character `symbol_pool` both generators draw from. -/
def symbolPool : List Char := symbolPoolCodes.map Char.ofNat

/-- Pool symbols as one-character tokens (`list(symbol_pool)` yields
one-character strings in Python). -/
def poolTokens : List (List Char) := symbolPool.map (fun c => [c])

/-- The surrogate test `0xD800 <= code_point <= 0xDFFF` of the extension loop. -/
def isSurrogate (cp : Nat) : Bool := decide (0xD800 ≤ cp ∧ cp ≤ 0xDFFF)

/-- Python list repetition `l * k`. -/
def listRepeat (l : List α) : Nat → List α
  | 0 => []
  | k + 1 => l ++ listRepeat l k

/-- The `while len(extra_symbols) < extra_needed` loop of
`generate_relation_fast`: walks code points from `cp`, jumping over the
surrogate range, skipping whitespace, and on exhausting `0x10FFFF` replaces
the accumulator by `extra_symbols * (extra_needed // len(extra_symbols) + 1)`
and stops. -/
def extraLoopGo (needed : Nat) (cp : Nat) (acc : List Char) : List Char :=
  if needed ≤ acc.length then acc
  else if isSurrogate cp then extraLoopGo needed 0xE000 acc
  else
    let acc' := if pyIsSpace cp then acc else acc ++ [Char.ofNat cp]
    if 0x10FFFF < cp + 1 then listRepeat acc' (needed / acc'.length + 1)
    else extraLoopGo needed (cp + 1) acc'
termination_by 0x110001 - cp
decreasing_by
  · simp only [isSurrogate, decide_eq_true_eq] at *; omega
  · omega

/-- The list `extra_symbols[:extra_needed]` for the non-fast generator
(the loop starts at code point `0x2600`). -/
def fastExtras (needed : Nat) : List Char :=
  (extraLoopGo needed 0x2600 []).take needed

/-- The base set built by `generate_relation_fast`: the full pool plus
extension symbols when `n` exceeds the pool, otherwise the
`random.sample(symbol_pool, n)` oracle `bs`. -/
def fastBase (n : Nat) (bs : List Char) : List (List Char) :=
  if symbolPool.length < n then poolTokens ++ (fastExtras (n - symbolPool.length)).map (fun c => [c])
  else bs.map (fun c => [c])

/-- Decimal digit character. -/
def digitChar (d : Nat) : Char := Char.ofNat (48 + d)

/-- Decimal digits of `m`, most significant first. -/
def natDec (m : Nat) : List Char :=
  if m < 10 then [digitChar m] else natDec (m / 10) ++ [digitChar (m % 10)]
termination_by m
decreasing_by exact Nat.div_lt_self (by omega) (by omega)

/-- Python's `f"{i:06d}"`: the decimal digits, zero-padded on the left to
width at least 6. -/
def pad6 (m : Nat) : List Char :=
  List.replicate (6 - (natDec m).length) '0' ++ natDec m

/-- The synthesized extension token `f"X{i:06d}"` of
`generate_relation_very_fast`. -/
def xToken (i : Nat) : List Char := 'X' :: pad6 i

/-- The base set built by `generate_relation_very_fast`. -/
def veryFastBase (n : Nat) (bs : List Char) : List (List Char) :=
  if symbolPool.length < n then
    poolTokens ++ ((List.range (n - symbolPool.length)).map xToken).take (n - symbolPool.length)
  else bs.map (fun c => [c])

/-- Python's `int(q)` for the non-negative quantities the generators apply it to
(truncation coincides with the floor there), clamped into `Nat`. -/
def pyIntNat (q : ℚ) : Nat := (⌊q⌋).toNat

/-- The decomposition `i = idx // n; j = idx % n`, guarded: Python raises
`ZeroDivisionError` when `n = 0`. -/
def decomp (n idx : Nat) : Option (Nat × Nat) :=
  if n = 0 then none else some (idx / n, idx % n)

/-- The `for idx in indices:` decomposition loop; `none` models a raised
`ZeroDivisionError`. -/
def mapDecomp (n : Nat) : List Nat → Option (List (Nat × Nat))
  | [] => some []
  | idx :: rest =>
    match decomp n idx, mapDecomp n rest with
    | some p, some ps => some (p :: ps)
    | _, _ => none

/-- The nested `for i in range(n): for j in range(n):` full product. -/
def allPairs (n : Nat) : List (Nat × Nat) :=
  (List.range n).flatMap (fun i => (List.range n).map (fun j => (i, j)))

/-- The moderate-density path of `generate_relation_fast`: keep `(i, j)`
when the drawn `row_random[j] < density`.  `rnd i j` is the value
`random.random()` returned for row `i`, column `j`. -/
def bernoulliPairs (n : Nat) (d : ℚ) (rnd : Nat → Nat → ℚ) : List (Nat × Nat) :=
  (List.range n).flatMap
    (fun i => ((List.range n).filter (fun j => decide (rnd i j < d))).map (fun j => (i, j)))

/-- Index pairs emitted by `generate_relation_fast`: the sparse path samples
`int(n*n*density)` flat indices (oracle `s` stands for
`random.sample(range(n*n), total_pairs)`), the moderate path tests every cell. -/
def fastPairs (n : Nat) (d : ℚ) (s : List Nat) (rnd : Nat → Nat → ℚ) :
    Option (List (Nat × Nat)) :=
  if 1000000 < (n : ℚ) * n * d then mapDecomp n s else some (bernoulliPairs n d rnd)

/-- Index pairs emitted by `generate_relation_very_fast`: for `density > 0.5`
the complement of `total_missing` sampled indices (oracle `sMiss`), written
in index order (all pairs when `total_missing == 0`); otherwise
`int(n*n*density)` directly sampled indices (oracle `sDir`). -/
def veryFastPairs (n : Nat) (d : ℚ) (sMiss sDir : List Nat) :
    Option (List (Nat × Nat)) :=
  if (1 : ℚ) / 2 < d then
    if pyIntNat ((n : ℚ) * n * (1 - d)) = 0 then some (allPairs n)
    else mapDecomp n ((List.range (n * n)).filter (fun idx => decide (idx ∉ sMiss)))
  else mapDecomp n sDir

/-- The header `" ".join(base)`. -/
def spaceJoin : List (List Char) → List Char
  | [] => []
  | [t] => t
  | t :: ts => t ++ ' ' :: spaceJoin ts

/-- One pair line `f"{base[i]} {base[j]}"`. -/
def pairLine (base : List (List Char)) (p : Nat × Nat) : List Char :=
  base.getD p.1 [] ++ ' ' :: base.getD p.2 []

/-- Function `generate_relation_fast(file_path, n, density)` as the list of lines it
writes: the space-joined header followed by one line per emitted pair
(`none` models an uncaught exception before the file is completed). -/
def generate_relation_fast (n : Nat) (d : ℚ) (bs : List Char) (s : List Nat)
    (rnd : Nat → Nat → ℚ) : Option (List (List Char)) :=
  (fastPairs n d s rnd).map
    (fun ps => spaceJoin (fastBase n bs) :: ps.map (pairLine (fastBase n bs)))

/-- Function `generate_relation_very_fast(file_path, n, density)` as the list of lines
it writes. -/
def generate_relation_very_fast (n : Nat) (d : ℚ) (bs : List Char)
    (sMiss sDir : List Nat) : Option (List (List Char)) :=
  (veryFastPairs n d sMiss sDir).map
    (fun ps => spaceJoin (veryFastBase n bs) :: ps.map (pairLine (veryFastBase n bs)))

/-- The bytes of the written file: every line is terminated by a newline. -/
def renderFile (lines : List (List Char)) : List Char :=
  lines.flatMap (fun l => l ++ ['\n'])

/-- Python `str.split()` on a line of the emitted file: split on runs of
spaces, dropping empty fields. -/
def splitWs (l : List Char) : List (List Char) :=
  match l with
  | [] => []
  | c :: cs =>
    if c = ' ' then splitWs cs
    else (c :: cs).takeWhile (fun x => !(x = ' ')) ::
      splitWs ((c :: cs).dropWhile (fun x => !(x = ' ')))
termination_by l.length
decreasing_by
  · simp
  · simp only [List.dropWhile_cons]
    split
    · exact Nat.lt_succ_of_le ((List.dropWhile_sublist _).length_le)
    · simp_all

/-- What `random.sample(range(m), k)` guarantees for its result. -/
def SampleSpec (m k : Nat) (s : List Nat) : Prop :=
  s.length = k ∧ s.Nodup ∧ ∀ x ∈ s, x < m

/-- What `random.sample(symbol_pool, n)` guarantees for its result. -/
def PoolSample (n : Nat) (bs : List Char) : Prop :=
  bs.length = n ∧ bs.Nodup ∧ ∀ c ∈ bs, c ∈ symbolPool

/-- Values of `random.random()` always lie in `[0, 1)`. -/
def RndSpec (rnd : Nat → Nat → ℚ) : Prop :=
  ∀ i j, 0 ≤ rnd i j ∧ rnd i j < 1

/-- A base token as written to the file: non-empty and free of whitespace. -/
def tokenGood (t : List Char) : Prop :=
  t ≠ [] ∧ ∀ c ∈ t, pyIsSpace c.toNat = false

/-- Closed form for the number of usable (non-surrogate, non-whitespace)
code points the extension loop can still collect from position `cp`. -/
def remainingValid (cp : Nat) : Nat :=
  (0xD800 - cp) + (0x110000 - max cp 0xE000) - (if cp ≤ 0x3000 then 1 else 0)

/-- A character appended by the extension loop when it is at position at
least `lo`: a non-whitespace code point in `[lo, 0x10FFFF]`. -/
def GoodChar (lo : Nat) (c : Char) : Prop :=
  lo ≤ c.toNat ∧ c.toNat ≤ 0x10FFFF ∧ pyIsSpace c.toNat = false

/-- Reading a digit string back as a number (Horner evaluation). -/
def decVal (l : List Char) : Nat := l.foldl (fun a c => a * 10 + (c.toNat - 48)) 0

/-- The pair count the direct-sampling paths compute: `int(n*n*density)`. -/
def directCount (n : Nat) (d : ℚ) : Nat := pyIntNat ((n : ℚ) * n * d)

/-- The pair count the complement path emits:
`n*n - int(n*n*(1.0 - density))` lines. -/
def complementCount (n : Nat) (d : ℚ) : Nat :=
  n * n - pyIntNat ((n : ℚ) * n * (1 - d))

/-- Set name `chr(ord("A") + i)` as a one-character string. -/
def nameOf (i : Nat) : String := String.mk [Char.ofNat (65 + i)]

/-- The slice `string.ascii_lowercase[:universe_size]`. -/
def setLetters (universe_size : Nat) : List Char :=
  (List.range (min universe_size 26)).map (fun i => Char.ofNat (97 + i))

/-- Python's `len(set_names) // 2 or 1`, the number of `del` lines. -/
def kDel (n_sets : Nat) : Nat := if n_sets / 2 = 0 then 1 else n_sets / 2

/-- Function `generate_set_commands(file_path, n_sets, elements_per_set, universe_size)`
as the list of command lines it writes.  Oracles: `es i` is the
`random.sample(letters, k=min(elements_per_set, universe_size))` drawn for
the `i`-th set, `rc i` the `random.choice(letters)` drawn for its `rem`
line, and `dels` the `random.sample(set_names, k=len(set_names) // 2 or 1)`
of names to delete. -/
def generate_set_commands (n_sets elements_per_set universe_size : Nat)
    (es : Nat → List Char) (rc : Nat → Char) (dels : List String) : List String :=
  ((List.range n_sets).map (fun i => "new " ++ nameOf i))
  ++ ((List.range n_sets).flatMap
      (fun i => (es i).map (fun e => "add " ++ nameOf i ++ " " ++ String.mk [e])))
  ++ ["see"]
  ++ ((List.range n_sets).map (fun i => "see " ++ nameOf i))
  ++ ((List.range n_sets).flatMap (fun i => (List.range n_sets).flatMap (fun j =>
      if nameOf i ≠ nameOf j then
        [nameOf i ++ " + " ++ nameOf j, nameOf i ++ " & " ++ nameOf j,
         nameOf i ++ " - " ++ nameOf j, nameOf i ++ " < " ++ nameOf j,
         nameOf j ++ " < " ++ nameOf i, nameOf i ++ " = " ++ nameOf j]
      else [])))
  ++ ((List.range n_sets).flatMap
      (fun i => ["pow " ++ nameOf i, "rem " ++ nameOf i ++ " " ++ String.mk [rc i]]))
  ++ (dels.map (fun nm => "del " ++ nm))
  ++ ["see"]

/-- A random source that always draws 0. -/
def rnd0 : Nat → Nat → ℚ := fun _ _ => 0

/-- A random source that always draws 1/2. -/
def rndHalf : Nat → Nat → ℚ := fun _ _ => 1 / 2

/-- A one-element draw for each set. -/
def esA : Nat → List Char := fun _ => ['a']

/-- A three-element draw for each set (the clamped sample for
`elements_per_set = 5, universe_size = 3`). -/
def esABC : Nat → List Char := fun _ => ['a', 'b', 'c']

/-- A removal choice of the letter a for each set. -/
def rcA : Nat → Char := fun _ => 'a'

/-- A deletion sample consisting of set `A`. -/
def delsA : List String := ["A"]

/-- The tail ordering claim C7 asserts for the two-set script: the two `pow`
lines adjacent, then the two `rem` lines, then the single `del` line, then
the closing bare `see`. -/
def claimC7TailShape (script : List String) : Prop :=
  ∃ pre p1 p2 r1 r2 dl, script = pre ++ [p1, p2, r1, r2, dl, "see"] ∧
    (∃ t, p1 = "pow " ++ t) ∧ (∃ t, p2 = "pow " ++ t) ∧
    (∃ t, r1 = "rem " ++ t) ∧ (∃ t, r2 = "rem " ++ t) ∧
    (∃ t, dl = "del " ++ t)

/-! ### The extension-symbol loop of `generate_relation_fast` -/

/-- Whitespace at or above the loop's start point is exactly `0x3000`. -/
lemma pyIsSpace_high {cp : Nat} (h0 : 0x2600 ≤ cp) (h : pyIsSpace cp = true) :
    cp = 0x3000 := by
  simp only [pyIsSpace, pySpaceCodes, decide_eq_true_eq, List.mem_cons,
    List.not_mem_nil, or_false] at h
  omega

lemma remainingValid_surr {cp : Nat} (h1 : isSurrogate cp = true) :
    remainingValid cp = remainingValid 0xE000 := by
  simp only [isSurrogate, decide_eq_true_eq] at h1
  simp only [remainingValid, Nat.max_def]
  split_ifs <;> omega

lemma remainingValid_space : remainingValid 0x3000 = remainingValid 0x3001 := by
  decide

lemma remainingValid_step {cp : Nat} (h0 : 0x2600 ≤ cp)
    (h1 : isSurrogate cp = false) (h2 : pyIsSpace cp = false)
    (h3 : cp < 0x10FFFF) : remainingValid cp = remainingValid (cp + 1) + 1 := by
  have hs : ¬(0xD800 ≤ cp ∧ cp ≤ 0xDFFF) := by
    simpa [isSurrogate] using h1
  have hsp : cp ≠ 0x3000 := by
    intro h; rw [h] at h2; exact absurd h2 (by decide)
  simp only [remainingValid, Nat.max_def]
  split_ifs <;> omega

lemma remainingValid_top : remainingValid 0x10FFFF = 1 := by decide

lemma remainingValid_start : remainingValid 0x2600 = 1102335 := by decide

lemma goodChar_mono {lo lo' : Nat} {c : Char} (h : lo' ≤ lo) :
    GoodChar lo c → GoodChar lo' c :=
  fun ⟨a, b, d⟩ => ⟨le_trans h a, b, d⟩

lemma toNat_ofNat_valid {cp : Nat} (h : Nat.isValidChar cp) :
    (Char.ofNat cp).toNat = cp := by
  simp [Char.ofNat, h, Char.ofNatAux, Char.toNat, UInt32.toNat, BitVec.toNat_ofNatLt]

lemma isValidChar_of (cp : Nat) (h1 : isSurrogate cp = false)
    (h2 : cp ≤ 0x10FFFF) : Nat.isValidChar cp := by
  simp only [isSurrogate, decide_eq_false_iff_not, not_and, not_le] at h1
  rcases Nat.lt_or_ge cp 0xD800 with h | h
  · exact Or.inl h
  · exact Or.inr ⟨by omega, by omega⟩

lemma length_listRepeat (l : List α) (k : Nat) :
    (listRepeat l k).length = k * l.length := by
  induction k with
  | zero => simp [listRepeat]
  | succ k ih => simp [listRepeat, ih]; ring

lemma mem_listRepeat {l : List α} {k : Nat} {c : α} (h : c ∈ listRepeat l k) :
    c ∈ l := by
  induction k with
  | zero => simp [listRepeat] at h
  | succ k ih => simp only [listRepeat, List.mem_append] at h; exact h.elim id ih

/-- When the loop can still collect `needed - |acc|` symbols before running
out of code points, it extends `acc` in place (and in the corner case
`cp = 0x10FFFF` appends repeated junk past position `needed`): the first
`max needed |acc|` characters are `acc` followed by fresh, pairwise-distinct
good characters. -/
lemma extraLoopGo_no_break (needed cp : Nat) (acc : List Char) :
    0x2600 ≤ cp → cp ≤ 0x10FFFF →
    needed ≤ acc.length + remainingValid cp →
    ∃ ext rest, extraLoopGo needed cp acc = (acc ++ ext) ++ rest ∧
      acc.length + ext.length = max needed acc.length ∧
      ext.Nodup ∧ ∀ c ∈ ext, GoodChar cp c := by
  induction cp, acc using extraLoopGo.induct needed with
  | case1 cp acc h =>
    intro _ _ _
    rw [extraLoopGo, if_pos h]
    exact ⟨[], [], by simp, by simp [Nat.max_eq_right h], List.nodup_nil, by simp⟩
  | case2 cp acc h1 h2 ih =>
    intro h0 hle hcap
    have hsur : 0xD800 ≤ cp ∧ cp ≤ 0xDFFF := by
      simpa [isSurrogate] using h2
    obtain ⟨ext, rest, heq, hlen, hnd, hgood⟩ :=
      ih (by omega) (by omega) (by rw [← remainingValid_surr h2]; omega)
    rw [extraLoopGo, if_neg h1, if_pos h2]
    exact ⟨ext, rest, heq, hlen, hnd,
      fun c hc => goodChar_mono (by omega) (hgood c hc)⟩
  | case3 cp acc h1 h2 h3 =>
    intro h0 hle hcap
    have hsurf : isSurrogate cp = false := by simpa using h2
    have hcp : cp = 0x10FFFF := by omega
    subst hcp
    have hsp : pyIsSpace 0x10FFFF = false := by decide
    have hcap' : needed = acc.length + 1 := by
      rw [remainingValid_top] at hcap; omega
    rw [extraLoopGo, if_neg h1, if_neg h2]
    simp only [hsp, Bool.false_eq_true, if_false, if_pos h3]
    have hlen' : (acc ++ [Char.ofNat 0x10FFFF]).length = needed := by
      simp [hcap']
    rw [hlen', Nat.div_self (by omega)]
    refine ⟨[Char.ofNat 0x10FFFF], (acc ++ [Char.ofNat 0x10FFFF]) ++ [], ?_, ?_,
      List.nodup_singleton _, ?_⟩
    · show listRepeat _ 2 = _
      rw [listRepeat, listRepeat, listRepeat]
    · simp [Nat.max_eq_left (by omega : acc.length ≤ needed), hcap']
    · intro c hc
      rw [List.mem_singleton] at hc
      subst hc
      rw [GoodChar, toNat_ofNat_valid (isValidChar_of _ hsurf (by omega))]
      exact ⟨le_refl _, le_refl _, by decide⟩
  | case4 cp acc h1 h2 acn h3 ih =>
    intro h0 hle hcap
    have hsurf : isSurrogate cp = false := by simpa using h2
    have hcp : cp < 0x10FFFF := by omega
    have hacn : acn = dite (pyIsSpace cp = true) (fun _ => acc)
        (fun _ => acc ++ [Char.ofNat cp]) := rfl
    by_cases hsp : pyIsSpace cp = true
    · have hc3000 : cp = 0x3000 := pyIsSpace_high h0 hsp
      rw [dif_pos hsp] at hacn
      rw [hacn] at ih
      obtain ⟨ext, rest, heq, hlen, hnd, hgood⟩ :=
        ih (by omega) (by omega)
          (by have : remainingValid cp = remainingValid (cp + 1) := by
                subst hc3000; exact remainingValid_space
              omega)
      rw [extraLoopGo, if_neg h1, if_neg h2]
      simp only [hsp, if_true, if_neg h3]
      exact ⟨ext, rest, heq, hlen, hnd,
        fun c hc => goodChar_mono (by omega) (hgood c hc)⟩
    · have hspf : pyIsSpace cp = false := by
        cases h : pyIsSpace cp
        · rfl
        · exact absurd h hsp
      have hvalid : Nat.isValidChar cp := isValidChar_of _ hsurf (by omega)
      have hstep := remainingValid_step h0 hsurf hspf hcp
      rw [dif_neg hsp] at hacn
      rw [hacn] at ih
      obtain ⟨ext, rest, heq, hlen, hnd, hgood⟩ :=
        ih (by omega) (by omega)
          (by simp only [List.length_append, List.length_singleton]; omega)
      rw [extraLoopGo, if_neg h1, if_neg h2]
      simp only [hspf, Bool.false_eq_true, if_false, if_neg h3]
      refine ⟨Char.ofNat cp :: ext, rest, ?_, ?_, ?_, ?_⟩
      · rw [heq]; simp
      · simp only [List.length_append, List.length_singleton] at hlen
        simp only [List.length_cons]
        have hmax : max needed (acc.length + 1) = needed :=
          Nat.max_eq_left (by omega)
        rw [hmax] at hlen
        rw [Nat.max_eq_left (by omega : acc.length ≤ needed)]
        omega
      · refine List.Nodup.cons ?_ hnd
        intro hmem
        have := (hgood _ hmem).1
        rw [toNat_ofNat_valid hvalid] at this
        omega
      · intro c hc
        rcases List.mem_cons.mp hc with h | h
        · subst h
          rw [GoodChar, toNat_ofNat_valid hvalid]
          exact ⟨le_refl _, by omega, hspf⟩
        · exact goodChar_mono (by omega) (hgood c h)

/-- When more symbols are requested than the extension range can supply, the
loop exhausts `0x10FFFF` and returns the Python list repetition
`extra_symbols * (extra_needed // len(extra_symbols) + 1)` of everything it
collected. -/
lemma extraLoopGo_break (needed cp : Nat) (acc : List Char) :
    0x2600 ≤ cp → cp ≤ 0x10FFFF →
    acc.length + remainingValid cp < needed →
    ∃ ext, extraLoopGo needed cp acc =
        listRepeat (acc ++ ext) (needed / (acc ++ ext).length + 1) ∧
      ext.length = remainingValid cp ∧ ∀ c ∈ ext, GoodChar cp c := by
  induction cp, acc using extraLoopGo.induct needed with
  | case1 cp acc h =>
    intro _ _ hcap
    omega
  | case2 cp acc h1 h2 ih =>
    intro h0 hle hcap
    have hsur : 0xD800 ≤ cp ∧ cp ≤ 0xDFFF := by
      simpa [isSurrogate] using h2
    obtain ⟨ext, heq, hlen, hgood⟩ :=
      ih (by omega) (by omega) (by rw [← remainingValid_surr h2]; omega)
    rw [extraLoopGo, if_neg h1, if_pos h2]
    exact ⟨ext, heq, by rw [hlen, remainingValid_surr h2],
      fun c hc => goodChar_mono (by omega) (hgood c hc)⟩
  | case3 cp acc h1 h2 h3 =>
    intro h0 hle hcap
    have hsurf : isSurrogate cp = false := by simpa using h2
    have hcp : cp = 0x10FFFF := by omega
    subst hcp
    have hsp : pyIsSpace 0x10FFFF = false := by decide
    rw [extraLoopGo, if_neg h1, if_neg h2]
    simp only [hsp, Bool.false_eq_true, if_false, if_pos h3]
    refine ⟨[Char.ofNat 0x10FFFF], rfl, by rw [remainingValid_top]; rfl, ?_⟩
    intro c hc
    rw [List.mem_singleton] at hc
    subst hc
    rw [GoodChar, toNat_ofNat_valid (isValidChar_of _ hsurf (by omega))]
    exact ⟨le_refl _, le_refl _, by decide⟩
  | case4 cp acc h1 h2 acn h3 ih =>
    intro h0 hle hcap
    have hsurf : isSurrogate cp = false := by simpa using h2
    have hcp : cp < 0x10FFFF := by omega
    have hacn : acn = dite (pyIsSpace cp = true) (fun _ => acc)
        (fun _ => acc ++ [Char.ofNat cp]) := rfl
    by_cases hsp : pyIsSpace cp = true
    · have hc3000 : cp = 0x3000 := pyIsSpace_high h0 hsp
      have hrv : remainingValid cp = remainingValid (cp + 1) := by
        subst hc3000; exact remainingValid_space
      rw [dif_pos hsp] at hacn
      rw [hacn] at ih
      obtain ⟨ext, heq, hlen, hgood⟩ := ih (by omega) (by omega) (by omega)
      rw [extraLoopGo, if_neg h1, if_neg h2]
      simp only [hsp, if_true, if_neg h3]
      exact ⟨ext, heq, by omega,
        fun c hc => goodChar_mono (by omega) (hgood c hc)⟩
    · have hspf : pyIsSpace cp = false := by
        cases h : pyIsSpace cp
        · rfl
        · exact absurd h hsp
      have hvalid : Nat.isValidChar cp := isValidChar_of _ hsurf (by omega)
      have hstep := remainingValid_step h0 hsurf hspf hcp
      rw [dif_neg hsp] at hacn
      rw [hacn] at ih
      obtain ⟨ext, heq, hlen, hgood⟩ :=
        ih (by omega) (by omega)
          (by simp only [List.length_append, List.length_singleton]; omega)
      rw [extraLoopGo, if_neg h1, if_neg h2]
      simp only [hspf, Bool.false_eq_true, if_false, if_neg h3]
      refine ⟨Char.ofNat cp :: ext, ?_, ?_, ?_⟩
      · rw [heq]
        have : (acc ++ [Char.ofNat cp]) ++ ext = acc ++ (Char.ofNat cp :: ext) := by
          simp
        rw [this]
      · simp only [List.length_cons]; omega
      · intro c hc
        rcases List.mem_cons.mp hc with h | h
        · subst h
          rw [GoodChar, toNat_ofNat_valid hvalid]
          exact ⟨le_refl _, by omega, hspf⟩
        · exact goodChar_mono (by omega) (hgood c h)

/-- Up to the capacity of the extension range (1102335 usable code points),
`extra_symbols[:extra_needed]` is a duplicate-free list of exactly the
requested length. -/
lemma fastExtras_spec_le (needed : Nat) (h : needed ≤ 1102335) :
    (fastExtras needed).length = needed ∧ (fastExtras needed).Nodup ∧
    ∀ c ∈ fastExtras needed, GoodChar 0x2600 c := by
  obtain ⟨ext, rest, heq, hlen, hnd, hgood⟩ :=
    extraLoopGo_no_break needed 0x2600 [] (le_refl _) (by norm_num)
      (by rw [remainingValid_start]; simpa using h)
  simp only [List.nil_append, List.length_nil, Nat.zero_add, Nat.max_zero] at heq hlen
  have hfe : fastExtras needed = ext := by
    rw [fastExtras, heq, List.take_left' hlen]
  rw [hfe]
  exact ⟨hlen, hnd, hgood⟩

/-- Beyond the capacity of the extension range the loop still delivers the
requested length, and every element is a good character, but the truncated
repetition repeats its very first character at positions `0` and `1102335`:
the result is no longer duplicate-free. -/
lemma fastExtras_spec_gt (needed : Nat) (h : 1102335 < needed) :
    (fastExtras needed).length = needed ∧
    (∀ c ∈ fastExtras needed, GoodChar 0x2600 c) ∧
    ¬ (fastExtras needed).Nodup := by
  obtain ⟨ext, heq, hlen, hgood⟩ :=
    extraLoopGo_break needed 0x2600 [] (le_refl _) (by norm_num)
      (by rw [remainingValid_start]; simpa using h)
  simp only [List.nil_append] at heq
  rw [remainingValid_start] at hlen
  have hm : 0 < ext.length := by omega
  have hq : 2 ≤ needed / ext.length + 1 := by
    rw [hlen]; omega
  have hrep : (listRepeat ext (needed / ext.length + 1)).length =
      (needed / ext.length + 1) * ext.length := length_listRepeat _ _
  have hge : needed ≤ (needed / ext.length + 1) * ext.length := by
    rw [hlen] at hrep ⊢; omega
  have hfe : fastExtras needed = (listRepeat ext (needed / ext.length + 1)).take needed := by
    rw [fastExtras, heq]
  have hflen : (fastExtras needed).length = needed := by
    rw [hfe, List.length_take, hrep]; omega
  refine ⟨hflen, ?_, ?_⟩
  · intro c hc
    rw [hfe] at hc
    exact hgood c (mem_listRepeat (List.take_subset _ _ hc))
  · obtain ⟨q, hq'⟩ : ∃ q, needed / ext.length + 1 = q + 1 :=
      ⟨needed / ext.length, rfl⟩
    obtain ⟨e0, extTail, hext⟩ : ∃ e0 t, ext = e0 :: t := by
      cases ext with
      | nil => simp at hm
      | cons a t => exact ⟨a, t, rfl⟩
    have hsplit : fastExtras needed =
        ext ++ (listRepeat ext q).take (needed - ext.length) := by
      rw [hfe, hq', listRepeat, List.take_append_eq_append_take,
        List.take_of_length_le (by omega)]
    obtain ⟨k, hk⟩ : ∃ k, needed - ext.length = k + 1 := ⟨needed - ext.length - 1, by omega⟩
    obtain ⟨q', hqq⟩ : ∃ q', q = q' + 1 := ⟨q - 1, by rw [hlen] at hq'; omega⟩
    have htake : ∃ rest, (listRepeat ext q).take (needed - ext.length) =
        e0 :: rest := by
      rw [hqq, listRepeat, hk, hext, List.cons_append, List.take_succ_cons]
      exact ⟨_, rfl⟩
    obtain ⟨rest, htake⟩ := htake
    intro hnd
    rw [hsplit, htake, List.nodup_append] at hnd
    exact hnd.2.2 (by rw [hext]; exact List.mem_cons_self _ _) (List.mem_cons_self _ _)

/-! ### Symbol bases -/

lemma symbolPool_nodup : symbolPool.Nodup := by decide

lemma symbolPool_length : symbolPool.length = 94 := by decide

lemma symbolPool_chars : ∀ c ∈ symbolPool,
    33 ≤ c.toNat ∧ c.toNat ≤ 126 ∧ pyIsSpace c.toNat = false := by decide

lemma singleton_injective : Function.Injective (fun c : Char => [c]) := by
  intro a b h
  simpa using h

lemma poolTokens_nodup : poolTokens.Nodup :=
  symbolPool_nodup.map singleton_injective

lemma poolTokens_good : ∀ t ∈ poolTokens, tokenGood t := by
  intro t ht
  obtain ⟨c, hc, rfl⟩ := List.mem_map.mp ht
  exact ⟨by simp, by
    intro x hx
    rw [List.mem_singleton] at hx
    rw [hx]
    exact (symbolPool_chars c hc).2.2⟩

lemma digitChar_toNat {d : Nat} (h : d < 10) : (digitChar d).toNat = 48 + d := by
  rw [digitChar, toNat_ofNat_valid]
  exact Or.inl (by omega)

lemma digitChar_notspace {d : Nat} (h : d < 10) :
    pyIsSpace (digitChar d).toNat = false := by
  rw [digitChar_toNat h]
  simp only [pyIsSpace, pySpaceCodes, decide_eq_false_iff_not, List.mem_cons,
    List.not_mem_nil, or_false]
  omega

lemma natDec_digits (m : Nat) : ∀ c ∈ natDec m, ∃ d, d < 10 ∧ c = digitChar d := by
  induction m using Nat.strong_induction_on with
  | _ m ih =>
    rw [natDec]
    by_cases h : m < 10
    · rw [if_pos h]
      intro c hc
      rw [List.mem_singleton] at hc
      exact ⟨m, h, hc⟩
    · rw [if_neg h]
      intro c hc
      rcases List.mem_append.mp hc with h' | h'
      · exact ih (m / 10) (Nat.div_lt_self (by omega) (by omega)) c h'
      · rw [List.mem_singleton] at h'
        exact ⟨m % 10, Nat.mod_lt _ (by omega), h'⟩

lemma natDec_ne_nil (m : Nat) : natDec m ≠ [] := by
  rw [natDec]
  by_cases h : m < 10
  · rw [if_pos h]; simp
  · rw [if_neg h]; simp

lemma foldl_natDec (m : Nat) : ∀ a : Nat,
    (natDec m).foldl (fun x c => x * 10 + (c.toNat - 48)) a =
      a * 10 ^ (natDec m).length + m := by
  induction m using Nat.strong_induction_on with
  | _ m ih =>
    intro a
    rw [natDec]
    by_cases h : m < 10
    · rw [if_pos h]
      simp only [List.foldl_cons, List.foldl_nil, List.length_singleton, pow_one]
      rw [digitChar_toNat h]
      omega
    · rw [if_neg h, List.foldl_append]
      rw [ih (m / 10) (Nat.div_lt_self (by omega) (by omega)) a]
      simp only [List.foldl_cons, List.foldl_nil, List.length_append,
        List.length_singleton]
      rw [digitChar_toNat (Nat.mod_lt _ (by omega))]
      have hmod : m % 10 < 10 := Nat.mod_lt _ (by omega)
      have hdm : m / 10 * 10 + m % 10 = m := by omega
      rw [pow_succ]
      ring_nf
      omega

lemma foldl_zeros (k : Nat) : ∀ a : Nat,
    (List.replicate k '0').foldl (fun x c => x * 10 + (c.toNat - 48)) a =
      a * 10 ^ k := by
  induction k with
  | zero => intro a; simp
  | succ k ih =>
    intro a
    rw [List.replicate_succ, List.foldl_cons, ih]
    have : ('0' : Char).toNat = 48 := by decide
    rw [this, pow_succ]
    ring_nf

lemma decVal_pad6 (m : Nat) : decVal (pad6 m) = m := by
  rw [decVal, pad6, List.foldl_append, foldl_zeros, foldl_natDec]
  simp

lemma pad6_inj : Function.Injective pad6 := by
  intro a b h
  have := congrArg decVal h
  rwa [decVal_pad6, decVal_pad6] at this

lemma xToken_inj : Function.Injective xToken := by
  intro a b h
  rw [xToken, xToken, List.cons.injEq] at h
  exact pad6_inj h.2

lemma pad6_length (m : Nat) : 6 ≤ (pad6 m).length := by
  rw [pad6, List.length_append, List.length_replicate]
  omega

lemma xToken_good (i : Nat) : tokenGood (xToken i) := by
  refine ⟨by simp [xToken], ?_⟩
  intro c hc
  rw [xToken] at hc
  rcases List.mem_cons.mp hc with h | h
  · subst h; decide
  · rw [pad6, List.mem_append] at h
    rcases h with h | h
    · rw [List.eq_of_mem_replicate h]; decide
    · obtain ⟨d, hd, rfl⟩ := natDec_digits i c h
      exact digitChar_notspace hd

lemma goodChar_token {c : Char} {lo : Nat} (h : GoodChar lo c) : tokenGood [c] := by
  refine ⟨by simp, ?_⟩
  intro x hx
  rw [List.mem_singleton] at hx
  rw [hx]
  exact h.2.2

/-- Shape of `generate_relation_fast`'s base: always `n` whitespace-free
tokens; duplicate-free as long as `n` does not exhaust the extension range
(`n ≤ 94 + 1102335`). -/
lemma fastBase_spec (n : Nat) (bs : List Char) (hbs : n ≤ 94 → PoolSample n bs) :
    (fastBase n bs).length = n ∧ (∀ t ∈ fastBase n bs, tokenGood t) ∧
    (n ≤ 1102429 → (fastBase n bs).Nodup) := by
  rw [fastBase, symbolPool_length]
  by_cases h94 : 94 < n
  · rw [if_pos h94]
    have hcases : (n - 94 ≤ 1102335 ∧
        ((fastExtras (n - 94)).length = n - 94 ∧ (fastExtras (n - 94)).Nodup ∧
          ∀ c ∈ fastExtras (n - 94), GoodChar 0x2600 c)) ∨
        (1102335 < n - 94 ∧ ((fastExtras (n - 94)).length = n - 94 ∧
          ∀ c ∈ fastExtras (n - 94), GoodChar 0x2600 c)) := by
      by_cases hc : n - 94 ≤ 1102335
      · exact Or.inl ⟨hc, fastExtras_spec_le _ hc⟩
      · obtain ⟨a, b, _⟩ := fastExtras_spec_gt (n - 94) (by omega)
        exact Or.inr ⟨by omega, a, b⟩
    have hlen : (fastExtras (n - 94)).length = n - 94 := by
      rcases hcases with ⟨_, h, _⟩ | ⟨_, h, _⟩ <;> exact h
    have hgood : ∀ c ∈ fastExtras (n - 94), GoodChar 0x2600 c := by
      rcases hcases with ⟨_, _, _, h⟩ | ⟨_, _, h⟩ <;> exact h
    refine ⟨?_, ?_, ?_⟩
    · rw [List.length_append, List.length_map, hlen, poolTokens,
        List.length_map, symbolPool_length]
      omega
    · intro t ht
      rcases List.mem_append.mp ht with h | h
      · exact poolTokens_good t h
      · obtain ⟨c, hc, rfl⟩ := List.mem_map.mp h
        exact goodChar_token (hgood c hc)
    · intro hcap
      have hext : (fastExtras (n - 94)).Nodup := by
        rcases hcases with ⟨_, _, h, _⟩ | ⟨hgt, _⟩
        · exact h
        · omega
      rw [List.nodup_append]
      refine ⟨poolTokens_nodup, hext.map singleton_injective, ?_⟩
      intro t ht ht'
      obtain ⟨c, hc, rfl⟩ := List.mem_map.mp ht
      obtain ⟨c', hc', heq⟩ := List.mem_map.mp ht'
      have hcc : c' = c := by simpa using heq
      rw [hcc] at hc'
      have h1 := (symbolPool_chars c hc).2.1
      have h2 := (hgood c hc').1
      omega
  · rw [if_neg h94]
    obtain ⟨hblen, hbnd, hbmem⟩ := hbs (by omega)
    refine ⟨by rw [List.length_map, hblen], ?_, fun _ => hbnd.map singleton_injective⟩
    intro t ht
    obtain ⟨c, hc, rfl⟩ := List.mem_map.mp ht
    refine ⟨by simp, ?_⟩
    intro x hx
    rw [List.mem_singleton] at hx
    rw [hx]
    exact (symbolPool_chars c (hbmem c hc)).2.2

/-- Past the extension range's capacity the fast generator's base contains a
repeated symbol. -/
lemma fastBase_dup (n : Nat) (bs : List Char) (h : 1102429 < n) :
    ¬ (fastBase n bs).Nodup := by
  rw [fastBase, symbolPool_length, if_pos (by omega)]
  intro hnd
  obtain ⟨_, _, hdup⟩ := fastExtras_spec_gt (n - 94) (by omega)
  exact hdup (((List.Nodup.of_append_right hnd).of_map) )

/-- Shape of `generate_relation_very_fast`'s base: always `n` pairwise
distinct whitespace-free tokens. -/
lemma veryFastBase_spec (n : Nat) (bs : List Char) (hbs : n ≤ 94 → PoolSample n bs) :
    (veryFastBase n bs).length = n ∧ (veryFastBase n bs).Nodup ∧
    ∀ t ∈ veryFastBase n bs, tokenGood t := by
  rw [veryFastBase, symbolPool_length]
  by_cases h94 : 94 < n
  · rw [if_pos h94]
    have hxl : ((List.range (n - 94)).map xToken).length = n - 94 := by
      rw [List.length_map, List.length_range]
    rw [List.take_of_length_le (le_of_eq hxl)]
    refine ⟨?_, ?_, ?_⟩
    · rw [List.length_append, hxl, poolTokens, List.length_map, symbolPool_length]
      omega
    · rw [List.nodup_append]
      refine ⟨poolTokens_nodup, (List.nodup_range _).map xToken_inj, ?_⟩
      intro t ht ht'
      obtain ⟨c, _, rfl⟩ := List.mem_map.mp ht
      obtain ⟨i, _, heq⟩ := List.mem_map.mp ht'
      have h1 : ([c] : List Char).length = 1 := by simp
      have h2 : (xToken i).length = (pad6 i).length + 1 := by simp [xToken]
      have h3 := pad6_length i
      rw [← heq] at h1
      omega
    · intro t ht
      rcases List.mem_append.mp ht with h | h
      · exact poolTokens_good t h
      · obtain ⟨i, _, rfl⟩ := List.mem_map.mp h
        exact xToken_good i
  · rw [if_neg h94]
    obtain ⟨hblen, hbnd, hbmem⟩ := hbs (by omega)
    refine ⟨by rw [List.length_map, hblen], hbnd.map singleton_injective, ?_⟩
    intro t ht
    obtain ⟨c, hc, rfl⟩ := List.mem_map.mp ht
    refine ⟨by simp, ?_⟩
    intro x hx
    rw [List.mem_singleton] at hx
    rw [hx]
    exact (symbolPool_chars c (hbmem c hc)).2.2

/-! ### Index pairs -/

lemma mapDecomp_pos {n : Nat} (hn : n ≠ 0) (l : List Nat) :
    mapDecomp n l = some (l.map (fun idx => (idx / n, idx % n))) := by
  induction l with
  | nil => rfl
  | cons idx rest ih =>
    rw [mapDecomp, decomp, if_neg hn, ih]
    rfl

lemma decompPair_injective (n : Nat) :
    Function.Injective (fun idx : Nat => (idx / n, idx % n)) := by
  intro x y h
  rw [Prod.mk.injEq] at h
  calc x = n * (x / n) + x % n := (Nat.div_add_mod x n).symm
    _ = n * (y / n) + y % n := by rw [h.1, h.2]
    _ = y := Nat.div_add_mod y n

lemma decompPair_lt {n idx : Nat} (hn : 0 < n) (h : idx < n * n) :
    idx / n < n ∧ idx % n < n :=
  ⟨(Nat.div_lt_iff_lt_mul hn).mpr h, Nat.mod_lt _ hn⟩

/-- A duplicate-free sample of the full `range(N)` of its own size contains
every element of the range. -/
lemma full_sample_mem {N : Nat} {s : List Nat} (h : SampleSpec N N s) :
    ∀ y, y < N → y ∈ s := by
  obtain ⟨hlen, hnd, hmem⟩ := h
  have hsub : s.toFinset ⊆ Finset.range N := by
    intro x hx
    rw [List.mem_toFinset] at hx
    exact Finset.mem_range.mpr (hmem x hx)
  have hcard : (Finset.range N).card ≤ s.toFinset.card := by
    rw [List.toFinset_card_of_nodup hnd, hlen, Finset.card_range]
  have hequal := Finset.eq_of_subset_of_card_le hsub hcard
  intro y hy
  have : y ∈ s.toFinset := by
    rw [hequal]
    exact Finset.mem_range.mpr hy
  rwa [List.mem_toFinset] at this

lemma allPairs_length (n : Nat) : (allPairs n).length = n * n := by
  rw [allPairs, List.length_flatMap]
  simp only [Function.comp_def, List.length_map, List.length_range]
  rw [List.map_const', List.sum_replicate, List.length_range, smul_eq_mul]

lemma allPairs_mem (n : Nat) (i j : Nat) :
    (i, j) ∈ allPairs n ↔ i < n ∧ j < n := by
  rw [allPairs, List.mem_flatMap]
  constructor
  · rintro ⟨a, ha, hmem⟩
    obtain ⟨b, hb, heq⟩ := List.mem_map.mp hmem
    rw [Prod.mk.injEq] at heq
    rw [← heq.1, ← heq.2]
    exact ⟨List.mem_range.mp ha, List.mem_range.mp hb⟩
  · rintro ⟨hi, hj⟩
    exact ⟨i, List.mem_range.mpr hi,
      List.mem_map.mpr ⟨j, List.mem_range.mpr hj, rfl⟩⟩

lemma allPairs_nodup (n : Nat) : (allPairs n).Nodup := by
  rw [allPairs, List.nodup_flatMap]
  constructor
  · intro i _
    exact (List.nodup_range n).map (fun a b h => by simpa using h)
  · apply List.Pairwise.imp ?_ (List.pairwise_lt_range n)
    intro i j hij
    intro p hp hq
    obtain ⟨b, _, heq⟩ := List.mem_map.mp hp
    obtain ⟨b', _, heq'⟩ := List.mem_map.mp hq
    have h1 : p.1 = i := by rw [← heq]
    have h2 : p.1 = j := by rw [← heq']
    exact absurd (h1 ▸ h2 ▸ rfl) (Nat.ne_of_lt hij)

/-- The moderate-density loop visits each cell once: its output is
duplicate-free with coordinates below `n`, whatever the drawn values. -/
lemma bernoulliPairs_spec (n : Nat) (d : ℚ) (rnd : Nat → Nat → ℚ) :
    (bernoulliPairs n d rnd).Nodup ∧
    ∀ p ∈ bernoulliPairs n d rnd, p.1 < n ∧ p.2 < n := by
  constructor
  · rw [bernoulliPairs, List.nodup_flatMap]
    constructor
    · intro i _
      exact (List.Nodup.filter _ (List.nodup_range n)).map
        (fun a b h => by simpa using h)
    · apply List.Pairwise.imp ?_ (List.pairwise_lt_range n)
      intro i j hij
      intro p hp hq
      obtain ⟨b, _, heq⟩ := List.mem_map.mp hp
      obtain ⟨b', _, heq'⟩ := List.mem_map.mp hq
      have h1 : p.1 = i := by rw [← heq]
      have h2 : p.1 = j := by rw [← heq']
      exact absurd (h1 ▸ h2 ▸ rfl) (Nat.ne_of_lt hij)
  · intro p hp
    rw [bernoulliPairs, List.mem_flatMap] at hp
    obtain ⟨i, hi, hmem⟩ := hp
    obtain ⟨j, hj, heq⟩ := List.mem_map.mp hmem
    rw [← heq]
    exact ⟨List.mem_range.mp hi, List.mem_range.mp (List.mem_of_mem_filter hj)⟩

/-- With a density at least 1 every cell passes the Bernoulli test. -/
lemma bernoulliPairs_all (n : Nat) (d : ℚ) (rnd : Nat → Nat → ℚ)
    (h : ∀ i j, rnd i j < d) : bernoulliPairs n d rnd = allPairs n := by
  rw [bernoulliPairs, allPairs]
  exact congrArg _ (funext fun i => by
    rw [List.filter_eq_self.mpr (fun j _ => decide_eq_true (h i j))])

/-- With a density at most 0 no cell passes the Bernoulli test. -/
lemma bernoulliPairs_none (n : Nat) (d : ℚ) (rnd : Nat → Nat → ℚ)
    (h : ∀ i j, ¬ rnd i j < d) : bernoulliPairs n d rnd = [] := by
  rw [bernoulliPairs]
  rw [List.flatMap_eq_nil_iff]
  intro i _
  rw [List.map_eq_nil_iff, List.filter_eq_nil_iff]
  intro j _
  exact fun hc => h i j (of_decide_eq_true hc)

/-! ### Lines and splitting -/

lemma tokenGood_no_space {t : List Char} (h : tokenGood t) : ∀ c ∈ t, c ≠ ' ' := by
  intro c hc heq
  have := h.2 c hc
  rw [heq] at this
  exact absurd this (by decide)

lemma takeWhile_nospace (a : List Char) (ha : ∀ c ∈ a, c ≠ ' ') :
    ∀ r, ((a ++ ' ' :: r).takeWhile (fun x => !(x = ' '))) = a := by
  induction a with
  | nil => intro r; simp
  | cons x xs ih =>
    intro r
    have hx : x ≠ ' ' := ha x (List.mem_cons_self _ _)
    rw [List.cons_append, List.takeWhile_cons]
    simp only [hx, decide_eq_true_eq, Bool.not_eq_true', decide_eq_false_iff_not,
      not_false_eq_true, if_true]
    rw [ih (fun c hc => ha c (List.mem_cons_of_mem _ hc)) r]

lemma dropWhile_nospace (a : List Char) (ha : ∀ c ∈ a, c ≠ ' ') :
    ∀ r, ((a ++ ' ' :: r).dropWhile (fun x => !(x = ' '))) = ' ' :: r := by
  induction a with
  | nil => intro r; simp
  | cons x xs ih =>
    intro r
    have hx : x ≠ ' ' := ha x (List.mem_cons_self _ _)
    rw [List.cons_append, List.dropWhile_cons]
    simp only [hx, decide_eq_true_eq, Bool.not_eq_true', decide_eq_false_iff_not,
      not_false_eq_true, if_true]
    exact ih (fun c hc => ha c (List.mem_cons_of_mem _ hc)) r

lemma takeWhile_nospace_all (a : List Char) (ha : ∀ c ∈ a, c ≠ ' ') :
    a.takeWhile (fun x => !(x = ' ')) = a := by
  induction a with
  | nil => simp
  | cons x xs ih =>
    have hx : x ≠ ' ' := ha x (List.mem_cons_self _ _)
    rw [List.takeWhile_cons]
    simp only [hx, decide_eq_true_eq, Bool.not_eq_true', decide_eq_false_iff_not,
      not_false_eq_true, if_true]
    rw [ih (fun c hc => ha c (List.mem_cons_of_mem _ hc))]

lemma dropWhile_nospace_all (a : List Char) (ha : ∀ c ∈ a, c ≠ ' ') :
    a.dropWhile (fun x => !(x = ' ')) = [] := by
  induction a with
  | nil => simp
  | cons x xs ih =>
    have hx : x ≠ ' ' := ha x (List.mem_cons_self _ _)
    rw [List.dropWhile_cons]
    simp only [hx, decide_eq_true_eq, Bool.not_eq_true', decide_eq_false_iff_not,
      not_false_eq_true, if_true]
    exact ih (fun c hc => ha c (List.mem_cons_of_mem _ hc))

lemma splitWs_sep (a : List Char) (hne : a ≠ []) (ha : ∀ c ∈ a, c ≠ ' ') (r : List Char) :
    splitWs (a ++ ' ' :: r) = a :: splitWs r := by
  obtain ⟨x, xs, rfl⟩ : ∃ x xs, a = x :: xs := by
    cases a with
    | nil => exact absurd rfl hne
    | cons x xs => exact ⟨x, xs, rfl⟩
  have hx : x ≠ ' ' := ha x (List.mem_cons_self _ _)
  rw [List.cons_append, splitWs, if_neg hx, ← List.cons_append,
    takeWhile_nospace _ ha, dropWhile_nospace _ ha]
  rw [splitWs, if_pos rfl]

lemma splitWs_single (a : List Char) (hne : a ≠ []) (ha : ∀ c ∈ a, c ≠ ' ') :
    splitWs a = [a] := by
  obtain ⟨x, xs, rfl⟩ : ∃ x xs, a = x :: xs := by
    cases a with
    | nil => exact absurd rfl hne
    | cons x xs => exact ⟨x, xs, rfl⟩
  have hx : x ≠ ' ' := ha x (List.mem_cons_self _ _)
  rw [splitWs, if_neg hx, takeWhile_nospace_all _ ha, dropWhile_nospace_all _ ha]
  rw [splitWs]

/-- The header line splits back into exactly the base's tokens. -/
lemma splitWs_spaceJoin (ts : List (List Char)) (h : ∀ t ∈ ts, tokenGood t) :
    splitWs (spaceJoin ts) = ts := by
  induction ts with
  | nil => rw [spaceJoin, splitWs]
  | cons t rest ih =>
    cases rest with
    | nil =>
      have hg := h t (List.mem_cons_self _ _)
      rw [spaceJoin]
      exact splitWs_single t hg.1 (tokenGood_no_space hg)
    | cons t' rest' =>
      have hg := h t (List.mem_cons_self _ _)
      rw [show spaceJoin (t :: t' :: rest') = t ++ ' ' :: spaceJoin (t' :: rest') from rfl]
      rw [splitWs_sep t hg.1 (tokenGood_no_space hg)]
      rw [ih (fun u hu => h u (List.mem_cons_of_mem _ hu))]

/-- A pair line splits into exactly its two tokens. -/
lemma splitWs_pairLine (t1 t2 : List Char) (h1 : tokenGood t1) (h2 : tokenGood t2) :
    splitWs (t1 ++ ' ' :: t2) = [t1, t2] := by
  rw [splitWs_sep t1 h1.1 (tokenGood_no_space h1),
    splitWs_single t2 h2.1 (tokenGood_no_space h2)]

/-! ### Arithmetic on pair counts -/

lemma pyIntNat_natCast (m : Nat) : pyIntNat (m : ℚ) = m := by
  rw [pyIntNat, Int.floor_natCast]
  simp

lemma pyIntNat_zero : pyIntNat 0 = 0 := by
  rw [pyIntNat]
  simp

/-- The complement path always emits the ceiling of `n²·d`, while the direct
path emits its floor. -/
lemma complementCount_eq_ceil (n : Nat) (d : ℚ) (h0 : 0 ≤ d) (h1 : d ≤ 1) :
    complementCount n d = (⌈(n : ℚ) * n * d⌉).toNat := by
  have hx0 : 0 ≤ (n : ℚ) * n * d := by positivity
  have hx1 : (n : ℚ) * n * d ≤ (n : ℚ) * n := by
    calc (n : ℚ) * n * d ≤ (n : ℚ) * n * 1 := by
          apply mul_le_mul_of_nonneg_left h1; positivity
      _ = (n : ℚ) * n := by ring
  have hceil0 : 0 ≤ ⌈(n : ℚ) * n * d⌉ := Int.ceil_nonneg hx0
  have hceilN : ⌈(n : ℚ) * n * d⌉ ≤ (n * n : ℕ) := by
    rw [Int.ceil_le]
    push_cast
    exact hx1
  have hfloor : ⌊(n : ℚ) * n * (1 - d)⌋ = (n * n : ℕ) - ⌈(n : ℚ) * n * d⌉ := by
    have hsplit : (n : ℚ) * n * (1 - d) = ((n * n : ℕ) : ℚ) + (-((n : ℚ) * n * d)) := by
      push_cast
      ring
    rw [hsplit, Int.floor_nat_add, Int.floor_neg]
    omega
  rw [complementCount, pyIntNat, hfloor]
  omega

/-- The two sizing formulas agree exactly when `n²·d` is an integer. -/
lemma directCount_eq_complementCount_iff (n : Nat) (d : ℚ) (h0 : 0 ≤ d) (h1 : d ≤ 1) :
    directCount n d = complementCount n d ↔ ∃ z : ℤ, (n : ℚ) * n * d = z := by
  rw [complementCount_eq_ceil n d h0 h1, directCount, pyIntNat]
  have hx0 : 0 ≤ (n : ℚ) * n * d := by positivity
  have hf0 : 0 ≤ ⌊(n : ℚ) * n * d⌋ := Int.floor_nonneg.mpr hx0
  have hfc : ⌊(n : ℚ) * n * d⌋ ≤ ⌈(n : ℚ) * n * d⌉ := Int.floor_le_ceil _
  constructor
  · intro h
    have heq : ⌊(n : ℚ) * n * d⌋ = ⌈(n : ℚ) * n * d⌉ := by omega
    refine ⟨⌊(n : ℚ) * n * d⌋, le_antisymm ?_ (Int.floor_le _)⟩
    calc (n : ℚ) * n * d ≤ ⌈(n : ℚ) * n * d⌉ := Int.le_ceil _
      _ = (⌊(n : ℚ) * n * d⌋ : ℚ) := by rw [heq]
  · rintro ⟨z, hz⟩
    rw [hz, Int.floor_intCast, Int.ceil_intCast]

/-- The number of lines the complement path writes: all of `range(n*n)` minus
the sampled missing indices. -/
lemma length_filter_not_mem (N : Nat) (s : List Nat) (hnd : s.Nodup)
    (hmem : ∀ x ∈ s, x < N) :
    ((List.range N).filter (fun idx => decide (idx ∉ s))).length = N - s.length := by
  have hperm : List.Perm ((List.range N).filter (fun idx => decide (idx ∈ s))) s := by
    rw [List.perm_ext_iff_of_nodup ((List.nodup_range N).filter _) hnd]
    intro a
    rw [List.mem_filter, List.mem_range, decide_eq_true_eq]
    constructor
    · exact fun h => h.2
    · exact fun h => ⟨hmem a h, h⟩
  have hsum := (List.filter_append_perm (fun idx => decide (idx ∉ s)) (List.range N)).length_eq
  rw [List.length_append, List.length_range] at hsum
  have hnotnot : (List.range N).filter (fun idx => !decide (idx ∉ s)) =
      (List.range N).filter (fun idx => decide (idx ∈ s)) := by
    apply List.filter_congr
    intro x _
    simp
  rw [hnotnot, hperm.length_eq] at hsum
  omega

/-! ### The set-command generator (`src/generators/sets.py`) -/

lemma del_line_data (nm : String) :
    ("del " ++ nm).data = 'd' :: 'e' :: 'l' :: ' ' :: nm.data := by
  rw [String.data_append]
  rfl

lemma ne_del_of_head {s : String} {c : Char} {rest : List Char}
    (h : s.data = c :: rest) (hc : c ≠ 'd') : ∀ nm, s ≠ "del " ++ nm := by
  intro nm heq
  rw [heq, del_line_data] at h
  exact hc (List.head_eq_of_cons_eq h).symm

lemma ne_del_of_snd {s : String} {c : Char} {rest : List Char}
    (h : s.data = c :: ' ' :: rest) : ∀ nm, s ≠ "del " ++ nm := by
  intro nm heq
  rw [heq, del_line_data] at h
  have := List.tail_eq_of_cons_eq h
  exact absurd (List.head_eq_of_cons_eq this).symm (by decide)

lemma nameOf_data (i : Nat) : (nameOf i).data = [Char.ofNat (65 + i)] := rfl

lemma new_line_not_del (i : Nat) : ∀ nm, ("new " ++ nameOf i) ≠ "del " ++ nm :=
  ne_del_of_head (by rw [String.data_append]; rfl) (by decide)

lemma add_line_not_del (i : Nat) (e : Char) :
    ∀ nm, ("add " ++ nameOf i ++ " " ++ String.mk [e]) ≠ "del " ++ nm :=
  ne_del_of_head (by simp only [String.data_append]; rfl) (by decide)

lemma see_not_del : ∀ nm, ("see" : String) ≠ "del " ++ nm :=
  ne_del_of_head (show ("see" : String).data = 's' :: ['e', 'e'] from rfl) (by decide)

lemma see_line_not_del (i : Nat) : ∀ nm, ("see " ++ nameOf i) ≠ "del " ++ nm :=
  ne_del_of_head (by rw [String.data_append]; rfl) (by decide)

lemma pow_line_not_del (i : Nat) : ∀ nm, ("pow " ++ nameOf i) ≠ "del " ++ nm :=
  ne_del_of_head (by rw [String.data_append]; rfl) (by decide)

lemma rem_line_not_del (i : Nat) (e : Char) :
    ∀ nm, ("rem " ++ nameOf i ++ " " ++ String.mk [e]) ≠ "del " ++ nm :=
  ne_del_of_head (by simp only [String.data_append]; rfl) (by decide)

lemma op_line_not_del (i j : Nat) (sep : String) (hsep : ∃ r, sep.data = ' ' :: r) :
    ∀ nm, (nameOf i ++ sep ++ nameOf j) ≠ "del " ++ nm := by
  obtain ⟨r, hr⟩ := hsep
  apply ne_del_of_snd
  show (nameOf i ++ sep ++ nameOf j).data = Char.ofNat (65 + i) :: ' ' :: (r ++ (nameOf j).data)
  rw [String.data_append, String.data_append, nameOf_data, hr]
  rfl

/-! ### Concrete random oracles used in witnesses and counterexamples -/

/-! ### Claim theorems -/

/-- Claim C8: for `n = 0` and `n = 1`, relation generation completes without
a division-by-zero (or modulo-by-zero): the guarded index decomposition
`i = idx // n, j = idx % n` never fires with `n = 0` on any code path of
either generator, so both return a completed file rather than the `none`
that models `ZeroDivisionError`. -/
theorem claim_C8 (d : ℚ) (bs : List Char) (s sMiss sDir sDir0 : List Nat)
    (rnd : Nat → Nat → ℚ)
    (hs0 : sDir0.length = pyIntNat ((0 : ℚ) * 0 * d)) :
    (generate_relation_fast 0 d bs s rnd).isSome ∧
    (generate_relation_fast 1 d bs s rnd).isSome ∧
    (generate_relation_very_fast 0 d bs sMiss sDir0).isSome ∧
    (generate_relation_very_fast 1 d bs sMiss sDir).isSome := by
  refine ⟨?_, ?_, ?_, ?_⟩
  · rw [generate_relation_fast, fastPairs, if_neg (by norm_num)]
    rfl
  · rw [generate_relation_fast, fastPairs]
    split
    · rw [mapDecomp_pos one_ne_zero]
      rfl
    · rfl
  · rw [generate_relation_very_fast, veryFastPairs]
    split
    · rw [if_pos (by norm_num [pyIntNat])]
      rfl
    · have hnil : sDir0 = [] := by
        rw [← List.length_eq_zero, hs0]
        norm_num [pyIntNat]
      rw [hnil]
      rfl
  · rw [generate_relation_very_fast, veryFastPairs]
    split
    · split
      · rfl
      · rw [mapDecomp_pos one_ne_zero]
        rfl
    · rw [mapDecomp_pos one_ne_zero]
      rfl

theorem claim_C8_witness :
    (([] : List Nat).length = pyIntNat ((0 : ℚ) * 0 * (1 / 50))) ∧
    ((generate_relation_fast 0 (1 / 50) [] [] rnd0).isSome ∧
     (generate_relation_fast 1 (1 / 50) [] [] rnd0).isSome ∧
     (generate_relation_very_fast 0 (1 / 50) [] [] []).isSome ∧
     (generate_relation_very_fast 1 (1 / 50) [] [] []).isSome) :=
  ⟨by norm_num [pyIntNat], claim_C8 (1 / 50) [] [] [] [] [] rnd0 (by norm_num [pyIntNat])⟩

/-- Claim C9: determinism under a fixed seed — once the random draws are
fixed (equal oracles), two runs of the same generator function with
identical arguments render byte-identical files, for both generators. -/
theorem claim_C9 (n : Nat) (d : ℚ) (bs bs' : List Char)
    (s s' sMiss sMiss' sDir sDir' : List Nat) (rnd rnd' : Nat → Nat → ℚ)
    (hbs : bs = bs') (hss : s = s') (hrnd : ∀ i j, rnd i j = rnd' i j)
    (hm : sMiss = sMiss') (hd : sDir = sDir') :
    (generate_relation_fast n d bs s rnd).map renderFile =
      (generate_relation_fast n d bs' s' rnd').map renderFile ∧
    (generate_relation_very_fast n d bs sMiss sDir).map renderFile =
      (generate_relation_very_fast n d bs' sMiss' sDir').map renderFile := by
  subst hbs hss hm hd
  have hr : rnd = rnd' := funext fun i => funext fun j => hrnd i j
  subst hr
  exact ⟨rfl, rfl⟩

theorem claim_C9_witness :
    (['a'] = ['a'] ∧ ([] : List Nat) = [] ∧ (∀ i j, rnd0 i j = rnd0 i j)) ∧
    ((generate_relation_fast 2 (1 / 50) ['a'] [] rnd0).map renderFile =
      (generate_relation_fast 2 (1 / 50) ['a'] [] rnd0).map renderFile ∧
     (generate_relation_very_fast 2 (1 / 50) ['a'] [] []).map renderFile =
      (generate_relation_very_fast 2 (1 / 50) ['a'] [] []).map renderFile) :=
  ⟨⟨rfl, rfl, fun _ _ => rfl⟩,
    claim_C9 2 (1 / 50) ['a'] ['a'] [] [] [] [] [] [] rnd0 rnd0 rfl rfl
      (fun _ _ => rfl) rfl rfl⟩

/-- Claim C3: for every `n ≥ 0`, density 0 yields a file consisting of the
header line only, and density 1 yields exactly `n²` pair lines covering
every ordered pair `(i, j)` of `{0..n-1}²` exactly once — for both generator
functions. -/
theorem claim_C3 :
    (∀ n : Nat, ∀ bs s rnd, (∀ i j, (0 : ℚ) ≤ rnd i j) →
      generate_relation_fast n 0 bs s rnd = some [spaceJoin (fastBase n bs)]) ∧
    (∀ n : Nat, ∀ bs sMiss sDir, sDir.length = pyIntNat ((n : ℚ) * n * 0) →
      generate_relation_very_fast n 0 bs sMiss sDir =
        some [spaceJoin (veryFastBase n bs)]) ∧
    (∀ n : Nat, ∀ bs s rnd, SampleSpec (n * n) (pyIntNat ((n : ℚ) * n * 1)) s →
      (∀ i j, (0 : ℚ) ≤ rnd i j ∧ rnd i j < 1) →
      ∃ ps : List (Nat × Nat), generate_relation_fast n 1 bs s rnd =
          some (spaceJoin (fastBase n bs) :: ps.map (pairLine (fastBase n bs))) ∧
        ps.length = n * n ∧ ps.Nodup ∧ ∀ i j, i < n → j < n → (i, j) ∈ ps) ∧
    (∀ n : Nat, ∀ bs sMiss sDir,
      generate_relation_very_fast n 1 bs sMiss sDir =
          some (spaceJoin (veryFastBase n bs) ::
            (allPairs n).map (pairLine (veryFastBase n bs))) ∧
        (allPairs n).length = n * n ∧ (allPairs n).Nodup ∧
        ∀ i j, i < n → j < n → (i, j) ∈ allPairs n) := by
  refine ⟨?_, ?_, ?_, ?_⟩
  · intro n bs s rnd hrnd
    rw [generate_relation_fast, fastPairs, if_neg (by
      rw [mul_zero]
      norm_num)]
    rw [bernoulliPairs_none n 0 rnd (fun i j => not_lt.mpr (hrnd i j))]
    rfl
  · intro n bs sMiss sDir hlen
    have hnil : sDir = [] := by
      rw [← List.length_eq_zero, hlen, mul_zero, pyIntNat_zero]
    rw [generate_relation_very_fast, veryFastPairs, if_neg (by norm_num), hnil,
      mapDecomp]
    rfl
  · intro n bs s rnd hS hrnd
    rw [generate_relation_fast, fastPairs]
    split
    · rename_i hcond
      have hn : n ≠ 0 := by
        intro h
        rw [h] at hcond
        norm_num at hcond
    -- the sampled indices are a permutation of range (n*n)
      have hk : pyIntNat ((n : ℚ) * n * 1) = n * n := by
        rw [mul_one, show ((n : ℚ) * n) = ((n * n : ℕ) : ℚ) by push_cast; ring,
          pyIntNat_natCast]
      rw [hk] at hS
      rw [mapDecomp_pos hn]
      refine ⟨s.map (fun idx => (idx / n, idx % n)), rfl, ?_, ?_, ?_⟩
      · rw [List.length_map, hS.1]
      · exact hS.2.1.map (decompPair_injective n)
      · intro i j hi hj
        have hidx : j + i * n < n * n := by
          calc j + i * n < n + i * n := by omega
            _ = (i + 1) * n := by ring
            _ ≤ n * n := Nat.mul_le_mul_right n (by omega)
        have hmem : j + i * n ∈ s := full_sample_mem hS _ hidx
        refine List.mem_map.mpr ⟨j + i * n, hmem, ?_⟩
        rw [Prod.mk.injEq]
        constructor
        · rw [Nat.add_mul_div_right _ _ (by omega : 0 < n),
            Nat.div_eq_of_lt hj]
          omega
        · rw [Nat.add_mul_mod_self_right, Nat.mod_eq_of_lt hj]
    · rename_i hcond
      simp only [bernoulliPairs_all n 1 rnd (fun i j => (hrnd i j).2)]
      exact ⟨allPairs n, rfl, allPairs_length n, allPairs_nodup n,
        fun i j hi hj => (allPairs_mem n i j).mpr ⟨hi, hj⟩⟩
  · intro n bs sMiss sDir
    rw [generate_relation_very_fast, veryFastPairs, if_pos (by norm_num),
      if_pos (by norm_num [pyIntNat])]
    exact ⟨rfl, allPairs_length n, allPairs_nodup n,
      fun i j hi hj => (allPairs_mem n i j).mpr ⟨hi, hj⟩⟩

theorem claim_C3_witness :
    ((∀ i j, (0 : ℚ) ≤ rnd0 i j) ∧ ([] : List Nat).length = pyIntNat ((1 : ℚ) * 1 * 0) ∧
      SampleSpec (1 * 1) (pyIntNat ((1 : ℚ) * 1 * 1)) [0] ∧
      (∀ i j, (0 : ℚ) ≤ rnd0 i j ∧ rnd0 i j < 1)) ∧
    (generate_relation_fast 1 0 ['a'] [] rnd0 = some [spaceJoin (fastBase 1 ['a'])] ∧
     generate_relation_very_fast 1 0 ['a'] [] [] = some [spaceJoin (veryFastBase 1 ['a'])] ∧
     (∃ ps : List (Nat × Nat), generate_relation_fast 1 1 ['a'] [0] rnd0 =
         some (spaceJoin (fastBase 1 ['a']) :: ps.map (pairLine (fastBase 1 ['a']))) ∧
       ps.length = 1 * 1 ∧ ps.Nodup ∧ ∀ i j, i < 1 → j < 1 → (i, j) ∈ ps) ∧
     (generate_relation_very_fast 1 1 ['a'] [] [] =
         some (spaceJoin (veryFastBase 1 ['a']) ::
           (allPairs 1).map (pairLine (veryFastBase 1 ['a']))) ∧
       (allPairs 1).length = 1 * 1 ∧ (allPairs 1).Nodup ∧
       ∀ i j, i < 1 → j < 1 → (i, j) ∈ allPairs 1)) := by
  have hS : SampleSpec (1 * 1) (pyIntNat ((1 : ℚ) * 1 * 1)) [0] := by
    refine ⟨by norm_num [pyIntNat], List.nodup_singleton 0, ?_⟩
    intro x hx
    rw [List.mem_singleton] at hx
    omega
  have hr0 : ∀ i j, (0 : ℚ) ≤ rnd0 i j ∧ rnd0 i j < 1 := fun _ _ => by
    constructor <;> norm_num [rnd0]
  refine ⟨⟨fun _ _ => le_refl 0, by norm_num [pyIntNat], hS, hr0⟩,
    claim_C3.1 1 ['a'] [] rnd0 (fun _ _ => le_refl 0),
    claim_C3.2.1 1 ['a'] [] [] (by norm_num [pyIntNat]),
    claim_C3.2.2.1 1 ['a'] [0] rnd0 hS hr0,
    claim_C3.2.2.2 1 ['a'] [] []⟩

/-- Claim C1 as stated is false on two counts.  On the moderate-density
Bernoulli path the pair count depends on the drawn random values: at
`n = 2, density = 1/2` with every draw equal to `1/2` no pair is emitted,
while `round(n²·d) = 2`.  On the sampling paths the count is the truncation
`int(n²·d)`: at `n = 3, density = 1/5` the direct path emits exactly 1 pair
(a legitimate sample of size `int(9·1/5) = 1`), while `round(9·1/5) = 2`. -/
theorem claim_C1_counterexample :
    fastPairs 2 (1 / 2) [] rndHalf = some [] ∧
    round ((2 : ℚ) * 2 * (1 / 2)) = 2 ∧
    veryFastPairs 3 (1 / 5) [] [0] = some [(0, 0)] ∧
    ([0] : List Nat).length = pyIntNat ((3 : ℚ) * 3 * (1 / 5)) ∧
    round ((3 : ℚ) * 3 * (1 / 5)) = 2 := by
  refine ⟨?_, by norm_num [round_eq], ?_, by norm_num [pyIntNat], by norm_num [round_eq]⟩
  · rw [fastPairs, if_neg (by norm_num)]
    rw [bernoulliPairs_none 2 (1 / 2) rndHalf (fun i j => by norm_num [rndHalf])]
  · rw [veryFastPairs, if_neg (by norm_num)]
    decide

/-- Claim C1 amended: on the distinct-index sampling paths (the sparse path
of `generate_relation_fast` and the direct path of
`generate_relation_very_fast`) the emitted pairs correspond to exactly
`int(n*n*density)` (truncation, not `round`) pairwise-distinct flat indices
of `[0, n²)`, each decomposing to coordinates below `n`.  On the
moderate-density Bernoulli path the emitted pairs are still pairwise
distinct with coordinates below `n`, but how many there are is determined
by the drawn random values, not by `n²·d`.  The written file always has one
line per emitted pair after the header. -/
theorem claim_C1 :
    (∀ n : Nat, ∀ d : ℚ, ∀ s rnd, 1000000 < (n : ℚ) * n * d →
      SampleSpec (n * n) (pyIntNat ((n : ℚ) * n * d)) s →
      ∃ ps : List (Nat × Nat), fastPairs n d s rnd = some ps ∧
        ps.length = pyIntNat ((n : ℚ) * n * d) ∧ ps.Nodup ∧
        ∀ p ∈ ps, p.1 < n ∧ p.2 < n) ∧
    (∀ n : Nat, ∀ d : ℚ, ∀ sMiss sDir, d ≤ 1 / 2 → 1 ≤ n →
      SampleSpec (n * n) (pyIntNat ((n : ℚ) * n * d)) sDir →
      ∃ ps : List (Nat × Nat), veryFastPairs n d sMiss sDir = some ps ∧
        ps.length = pyIntNat ((n : ℚ) * n * d) ∧ ps.Nodup ∧
        ∀ p ∈ ps, p.1 < n ∧ p.2 < n) ∧
    (∀ n : Nat, ∀ d : ℚ, ∀ s rnd, ¬ 1000000 < (n : ℚ) * n * d →
      ∃ ps : List (Nat × Nat), fastPairs n d s rnd = some ps ∧ ps.Nodup ∧
        ∀ p ∈ ps, p.1 < n ∧ p.2 < n) ∧
    (∀ n : Nat, ∀ d : ℚ, ∀ bs s rnd,
      (generate_relation_fast n d bs s rnd).map List.length =
        (fastPairs n d s rnd).map (fun ps => ps.length + 1)) := by
  refine ⟨?_, ?_, ?_, ?_⟩
  · intro n d s rnd hcond hS
    have hn : 0 < n := by
      rcases Nat.eq_zero_or_pos n with h | h
      · rw [h] at hcond
        norm_num at hcond
      · exact h
    rw [fastPairs, if_pos hcond, mapDecomp_pos (by omega)]
    refine ⟨_, rfl, ?_, hS.2.1.map (decompPair_injective n), ?_⟩
    · rw [List.length_map, hS.1]
    · intro p hp
      obtain ⟨idx, hidx, rfl⟩ := List.mem_map.mp hp
      exact decompPair_lt hn (hS.2.2 idx hidx)
  · intro n d sMiss sDir hd hn hS
    rw [veryFastPairs, if_neg (not_lt.mpr hd), mapDecomp_pos (by omega)]
    refine ⟨_, rfl, ?_, hS.2.1.map (decompPair_injective n), ?_⟩
    · rw [List.length_map, hS.1]
    · intro p hp
      obtain ⟨idx, hidx, rfl⟩ := List.mem_map.mp hp
      exact decompPair_lt (by omega) (hS.2.2 idx hidx)
  · intro n d s rnd hcond
    rw [fastPairs, if_neg hcond]
    obtain ⟨hnd, hmem⟩ := bernoulliPairs_spec n d rnd
    exact ⟨_, rfl, hnd, hmem⟩
  · intro n d bs s rnd
    rw [generate_relation_fast]
    cases h : fastPairs n d s rnd with
    | none => rfl
    | some ps => simp

theorem claim_C1_witness :
    (1000000 < (2000 : ℚ) * 2000 * (1 / 2) ∧
     SampleSpec (2000 * 2000) (pyIntNat ((2000 : ℚ) * 2000 * (1 / 2)))
       (List.range 2000000) ∧
     (1 : ℚ) / 5 ≤ 1 / 2 ∧ (1 : Nat) ≤ 3 ∧
     SampleSpec (3 * 3) (pyIntNat ((3 : ℚ) * 3 * (1 / 5))) [0] ∧
     ¬ 1000000 < (1 : ℚ) * 1 * (1 / 2)) ∧
    ((∃ ps : List (Nat × Nat),
        fastPairs 2000 (1 / 2) (List.range 2000000) rnd0 = some ps ∧
        ps.length = pyIntNat ((2000 : ℚ) * 2000 * (1 / 2)) ∧ ps.Nodup ∧
        ∀ p ∈ ps, p.1 < 2000 ∧ p.2 < 2000) ∧
     (∃ ps : List (Nat × Nat), veryFastPairs 3 (1 / 5) [] [0] = some ps ∧
        ps.length = pyIntNat ((3 : ℚ) * 3 * (1 / 5)) ∧ ps.Nodup ∧
        ∀ p ∈ ps, p.1 < 3 ∧ p.2 < 3) ∧
     (∃ ps : List (Nat × Nat), fastPairs 1 (1 / 2) [] rndHalf = some ps ∧ ps.Nodup ∧
        ∀ p ∈ ps, p.1 < 1 ∧ p.2 < 1) ∧
     ((generate_relation_fast 1 0 ['a'] [] rnd0).map List.length =
        (fastPairs 1 0 [] rnd0).map (fun ps => ps.length + 1))) := by
  have h1 : (1000000 : ℚ) < (2000 : ℚ) * 2000 * (1 / 2) := by norm_num
  have hS1 : SampleSpec (2000 * 2000) (pyIntNat ((2000 : ℚ) * 2000 * (1 / 2)))
      (List.range 2000000) := by
    refine ⟨?_, List.nodup_range _, ?_⟩
    · rw [List.length_range]
      norm_num [pyIntNat]
      rfl
    · intro x hx
      rw [List.mem_range] at hx
      omega
  have hS2 : SampleSpec (3 * 3) (pyIntNat ((3 : ℚ) * 3 * (1 / 5))) [0] := by
    refine ⟨by norm_num [pyIntNat], List.nodup_singleton 0, ?_⟩
    intro x hx
    rw [List.mem_singleton] at hx
    omega
  have h3 : ¬ (1000000 : ℚ) < (1 : ℚ) * 1 * (1 / 2) := by norm_num
  exact ⟨⟨h1, hS1, by norm_num, by omega, hS2, h3⟩,
    claim_C1.1 2000 (1 / 2) (List.range 2000000) rnd0 h1 hS1,
    claim_C1.2.1 3 (1 / 5) [] [0] (by norm_num) (by omega) hS2,
    claim_C1.2.2.1 1 (1 / 2) [] rndHalf h3,
    claim_C1.2.2.2 1 0 ['a'] [] rnd0⟩

/-- Claim C2 as stated is false: at `n = 2, density = 7/10` the direct-mode
sizing `int(n²·d) = int(2.8) = 2` differs from the complement-mode emission
count `n² - int(n²·(1-d)) = 4 - int(1.2) = 3`, and the complement path
really does emit 3 pair lines there (for the legitimate one-element missing
sample `[0]`). -/
theorem claim_C2_counterexample :
    directCount 2 (7 / 10) = 2 ∧ complementCount 2 (7 / 10) = 3 ∧
    veryFastPairs 2 (7 / 10) [0] [] = some [(0, 1), (1, 0), (1, 1)] ∧
    ([0] : List Nat).length = pyIntNat ((2 : ℚ) * 2 * (1 - 7 / 10)) := by
  refine ⟨by norm_num [directCount, pyIntNat]; rfl,
    by norm_num [complementCount, pyIntNat],
    ?_, by norm_num [pyIntNat]⟩
  rw [veryFastPairs, if_pos (by norm_num), if_neg (by norm_num [pyIntNat])]
  decide

/-- Claim C2 amended: for `d ∈ [0,1]` the complement path emits
`n² - int(n²·(1-d)) = ⌈n²·d⌉` pair lines while the direct path emits
`int(n²·d) = ⌊n²·d⌋`; the two counts coincide exactly when `n²·d` is an
integer, and otherwise the complement path emits one more line. -/
theorem claim_C2 :
    (∀ n : Nat, ∀ d : ℚ, 0 ≤ d → d ≤ 1 →
      complementCount n d = (⌈(n : ℚ) * n * d⌉).toNat) ∧
    (∀ n : Nat, ∀ d : ℚ, 0 ≤ d → d ≤ 1 →
      (directCount n d = complementCount n d ↔ ∃ z : ℤ, (n : ℚ) * n * d = z)) ∧
    (∀ n : Nat, ∀ d : ℚ, ∀ sMiss sDir, 1 / 2 < d → 1 ≤ n →
      SampleSpec (n * n) (pyIntNat ((n : ℚ) * n * (1 - d))) sMiss →
      ∃ ps : List (Nat × Nat), veryFastPairs n d sMiss sDir = some ps ∧
        ps.length = complementCount n d) ∧
    (∀ n : Nat, ∀ d : ℚ, ∀ sMiss sDir, d ≤ 1 / 2 → 1 ≤ n →
      SampleSpec (n * n) (pyIntNat ((n : ℚ) * n * d)) sDir →
      ∃ ps : List (Nat × Nat), veryFastPairs n d sMiss sDir = some ps ∧
        ps.length = directCount n d) := by
  refine ⟨complementCount_eq_ceil, directCount_eq_complementCount_iff, ?_, ?_⟩
  · intro n d sMiss sDir hd hn hS
    rw [veryFastPairs, if_pos hd]
    by_cases hm : pyIntNat ((n : ℚ) * n * (1 - d)) = 0
    · rw [if_pos hm]
      refine ⟨allPairs n, rfl, ?_⟩
      rw [allPairs_length, complementCount, hm]
      omega
    · rw [if_neg hm, mapDecomp_pos (by omega)]
      refine ⟨_, rfl, ?_⟩
      rw [List.length_map,
        length_filter_not_mem (n * n) sMiss hS.2.1 hS.2.2,
        hS.1, complementCount]
  · intro n d sMiss sDir hd hn hS
    rw [veryFastPairs, if_neg (not_lt.mpr hd), mapDecomp_pos (by omega)]
    refine ⟨_, rfl, ?_⟩
    rw [List.length_map, hS.1, directCount]

theorem claim_C2_witness :
    ((0 : ℚ) ≤ 7 / 10 ∧ (7 : ℚ) / 10 ≤ 1 ∧ (1 : ℚ) / 2 < 7 / 10 ∧ (1 : Nat) ≤ 2 ∧
     SampleSpec (2 * 2) (pyIntNat ((2 : ℚ) * 2 * (1 - 7 / 10))) [0] ∧
     (1 : ℚ) / 5 ≤ 1 / 2 ∧ (1 : Nat) ≤ 3 ∧
     SampleSpec (3 * 3) (pyIntNat ((3 : ℚ) * 3 * (1 / 5))) [2]) ∧
    (complementCount 2 (7 / 10) = (⌈(2 : ℚ) * 2 * (7 / 10)⌉).toNat ∧
     (directCount 2 (7 / 10) = complementCount 2 (7 / 10) ↔
       ∃ z : ℤ, (2 : ℚ) * 2 * (7 / 10) = z) ∧
     (∃ ps : List (Nat × Nat), veryFastPairs 2 (7 / 10) [0] [] = some ps ∧
       ps.length = complementCount 2 (7 / 10)) ∧
     (∃ ps : List (Nat × Nat), veryFastPairs 3 (1 / 5) [] [2] = some ps ∧
       ps.length = directCount 3 (1 / 5))) := by
  have hS1 : SampleSpec (2 * 2) (pyIntNat ((2 : ℚ) * 2 * (1 - 7 / 10))) [0] := by
    refine ⟨by norm_num [pyIntNat], List.nodup_singleton 0, ?_⟩
    intro x hx
    rw [List.mem_singleton] at hx
    omega
  have hS2 : SampleSpec (3 * 3) (pyIntNat ((3 : ℚ) * 3 * (1 / 5))) [2] := by
    refine ⟨by norm_num [pyIntNat], List.nodup_singleton 2, ?_⟩
    intro x hx
    rw [List.mem_singleton] at hx
    omega
  exact ⟨⟨by norm_num, by norm_num, by norm_num, by omega, hS1, by norm_num, by omega, hS2⟩,
    claim_C2.1 2 (7 / 10) (by norm_num) (by norm_num),
    claim_C2.2.1 2 (7 / 10) (by norm_num) (by norm_num),
    claim_C2.2.2.1 2 (7 / 10) [0] [] (by norm_num) (by omega) hS1,
    claim_C2.2.2.2 3 (1 / 5) [] [2] (by norm_num) (by omega) hS2⟩

/-- Claim C4 as stated is false for `generate_relation_fast` once `n`
exhausts the extension range: at `n = 94 + 1102336 = 1102430` the base still
has exactly `n` tokens, but it contains a repeated symbol, because the loop
falls back to Python list repetition (`extra_symbols * (...)`) when the code
points run out. -/
theorem claim_C4_counterexample :
    (fastBase 1102430 []).length = 1102430 ∧ ¬ (fastBase 1102430 []).Nodup :=
  ⟨(fastBase_spec 1102430 [] (fun h => absurd h (by omega))).1,
    fastBase_dup 1102430 [] (by omega)⟩

/-- Claim C4 amended: both bases always consist of exactly `n` non-empty
whitespace-free tokens; those of `generate_relation_very_fast` are pairwise
distinct for every `n ≥ 1`, while those of `generate_relation_fast` are
pairwise distinct only up to the extension range's capacity
(`n ≤ 94 + 1102335`) — beyond it the extension symbols repeat cyclically. -/
theorem claim_C4 :
    (∀ n : Nat, ∀ bs, 1 ≤ n → (n ≤ 94 → PoolSample n bs) →
      (veryFastBase n bs).length = n ∧ (veryFastBase n bs).Nodup ∧
      ∀ t ∈ veryFastBase n bs, tokenGood t) ∧
    (∀ n : Nat, ∀ bs, 1 ≤ n → n ≤ 1102429 → (n ≤ 94 → PoolSample n bs) →
      (fastBase n bs).length = n ∧ (fastBase n bs).Nodup ∧
      ∀ t ∈ fastBase n bs, tokenGood t) ∧
    (∀ n : Nat, ∀ bs, (n ≤ 94 → PoolSample n bs) →
      (fastBase n bs).length = n ∧ ∀ t ∈ fastBase n bs, tokenGood t) := by
  refine ⟨?_, ?_, ?_⟩
  · intro n bs _ hbs
    exact veryFastBase_spec n bs hbs
  · intro n bs _ hcap hbs
    obtain ⟨h1, h2, h3⟩ := fastBase_spec n bs hbs
    exact ⟨h1, h3 hcap, h2⟩
  · intro n bs hbs
    obtain ⟨h1, h2, _⟩ := fastBase_spec n bs hbs
    exact ⟨h1, h2⟩

theorem claim_C4_witness :
    ((1 : Nat) ≤ 95 ∧ (95 : Nat) ≤ 1102429) ∧
    (((veryFastBase 95 []).length = 95 ∧ (veryFastBase 95 []).Nodup ∧
      ∀ t ∈ veryFastBase 95 [], tokenGood t) ∧
     ((fastBase 95 []).length = 95 ∧ (fastBase 95 []).Nodup ∧
      ∀ t ∈ fastBase 95 [], tokenGood t) ∧
     ((fastBase 1102430 []).length = 1102430 ∧
      ∀ t ∈ fastBase 1102430 [], tokenGood t)) :=
  ⟨⟨by omega, by omega⟩,
    claim_C4.1 95 [] (by omega) (fun h => absurd h (by omega)),
    claim_C4.2.1 95 [] (by omega) (by omega) (fun h => absurd h (by omega)),
    claim_C4.2.2 1102430 [] (fun h => absurd h (by omega))⟩

lemma pairLine_split (base : List (List Char)) (hbase : ∀ t ∈ base, tokenGood t)
    (p : Nat × Nat) (h1 : p.1 < base.length) (h2 : p.2 < base.length) :
    ∃ t1 t2, splitWs (pairLine base p) = [t1, t2] ∧ t1 ∈ base ∧ t2 ∈ base := by
  have hm1 : base.getD p.1 [] ∈ base := by
    rw [List.getD_eq_getElem _ _ h1]
    exact List.getElem_mem h1
  have hm2 : base.getD p.2 [] ∈ base := by
    rw [List.getD_eq_getElem _ _ h2]
    exact List.getElem_mem h2
  exact ⟨_, _, splitWs_pairLine _ _ (hbase _ hm1) (hbase _ hm2), hm1, hm2⟩

lemma fastPairs_bounds (n : Nat) (d : ℚ) (s : List Nat) (rnd : Nat → Nat → ℚ)
    (hs : ∀ x ∈ s, x < n * n) :
    ∀ ps, fastPairs n d s rnd = some ps → ∀ p ∈ ps, p.1 < n ∧ p.2 < n := by
  intro ps hps p hp
  rw [fastPairs] at hps
  split at hps
  · rename_i hcond
    have hn : 0 < n := by
      rcases Nat.eq_zero_or_pos n with h | h
      · rw [h] at hcond
        norm_num at hcond
      · exact h
    rw [mapDecomp_pos (by omega)] at hps
    injection hps with hps
    rw [← hps] at hp
    obtain ⟨idx, hidx, rfl⟩ := List.mem_map.mp hp
    exact decompPair_lt hn (hs idx hidx)
  · injection hps with hps
    rw [← hps] at hp
    exact (bernoulliPairs_spec n d rnd).2 p hp

lemma veryFastPairs_bounds (n : Nat) (d : ℚ) (sMiss sDir : List Nat)
    (hs : ∀ x ∈ sDir, x < n * n) :
    ∀ ps, veryFastPairs n d sMiss sDir = some ps → ∀ p ∈ ps, p.1 < n ∧ p.2 < n := by
  intro ps hps p hp
  rw [veryFastPairs] at hps
  split at hps
  · split at hps
    · injection hps with hps
      rw [← hps] at hp
      have := (allPairs_mem n p.1 p.2).mp (by simpa using hp)
      exact this
    · rename_i hm
      have hn : 0 < n := by
        rcases Nat.eq_zero_or_pos n with h | h
        · rw [h] at hm
          norm_num [pyIntNat] at hm
        · exact h
      rw [mapDecomp_pos (by omega)] at hps
      injection hps with hps
      rw [← hps] at hp
      obtain ⟨idx, hidx, rfl⟩ := List.mem_map.mp hp
      exact decompPair_lt hn (List.mem_range.mp (List.mem_of_mem_filter hidx))
  · rcases Nat.eq_zero_or_pos n with h | h
    · subst h
      cases sDir with
      | nil =>
        rw [mapDecomp] at hps
        injection hps with hps
        rw [← hps] at hp
        exact absurd hp (List.not_mem_nil p)
      | cons idx rest =>
        rw [mapDecomp, decomp, if_pos rfl] at hps
        exact absurd hps (by simp)
    · rw [mapDecomp_pos (by omega)] at hps
      injection hps with hps
      rw [← hps] at hp
      obtain ⟨idx, hidx, rfl⟩ := List.mem_map.mp hp
      exact decompPair_lt h (hs idx hidx)

/-- Claim C5: round-trip — in every emitted relation file each line after
the header splits (Python `str.split()`) into exactly two tokens, both
members of the symbol sequence declared on the header line, which itself
splits back into exactly the base. -/
theorem claim_C5 :
    (∀ n : Nat, ∀ d : ℚ, ∀ bs s rnd, (n ≤ 94 → PoolSample n bs) →
      (∀ x ∈ s, x < n * n) →
      ∀ file, generate_relation_fast n d bs s rnd = some file →
      splitWs (spaceJoin (fastBase n bs)) = fastBase n bs ∧
      ∀ l ∈ file.tail, ∃ t1 t2, splitWs l = [t1, t2] ∧
        t1 ∈ fastBase n bs ∧ t2 ∈ fastBase n bs) ∧
    (∀ n : Nat, ∀ d : ℚ, ∀ bs sMiss sDir, (n ≤ 94 → PoolSample n bs) →
      (∀ x ∈ sDir, x < n * n) →
      ∀ file, generate_relation_very_fast n d bs sMiss sDir = some file →
      splitWs (spaceJoin (veryFastBase n bs)) = veryFastBase n bs ∧
      ∀ l ∈ file.tail, ∃ t1 t2, splitWs l = [t1, t2] ∧
        t1 ∈ veryFastBase n bs ∧ t2 ∈ veryFastBase n bs) := by
  constructor
  · intro n d bs s rnd hbs hs file hfile
    obtain ⟨hblen, hbgood, _⟩ := fastBase_spec n bs hbs
    refine ⟨splitWs_spaceJoin _ hbgood, ?_⟩
    rw [generate_relation_fast] at hfile
    cases hps : fastPairs n d s rnd with
    | none => rw [hps] at hfile; exact absurd hfile (by simp)
    | some ps =>
      rw [hps] at hfile
      injection hfile with hfile
      rw [← hfile]
      intro l hl
      rw [List.tail_cons] at hl
      obtain ⟨p, hp, rfl⟩ := List.mem_map.mp hl
      obtain ⟨hp1, hp2⟩ := fastPairs_bounds n d s rnd hs ps hps p hp
      exact pairLine_split _ hbgood p (by omega) (by omega)
  · intro n d bs sMiss sDir hbs hs file hfile
    obtain ⟨hblen, _, hbgood⟩ := veryFastBase_spec n bs hbs
    refine ⟨splitWs_spaceJoin _ hbgood, ?_⟩
    rw [generate_relation_very_fast] at hfile
    cases hps : veryFastPairs n d sMiss sDir with
    | none => rw [hps] at hfile; exact absurd hfile (by simp)
    | some ps =>
      rw [hps] at hfile
      injection hfile with hfile
      rw [← hfile]
      intro l hl
      rw [List.tail_cons] at hl
      obtain ⟨p, hp, rfl⟩ := List.mem_map.mp hl
      obtain ⟨hp1, hp2⟩ := veryFastPairs_bounds n d sMiss sDir hs ps hps p hp
      exact pairLine_split _ hbgood p (by omega) (by omega)

theorem claim_C5_witness :
    ((2 ≤ 94 → PoolSample 2 ['a', 'b']) ∧ (∀ x ∈ [(0 : Nat)], x < 2 * 2)) ∧
    ((∀ file, generate_relation_fast 2 (1 / 50) ['a', 'b'] [0] rnd0 = some file →
      splitWs (spaceJoin (fastBase 2 ['a', 'b'])) = fastBase 2 ['a', 'b'] ∧
      ∀ l ∈ file.tail, ∃ t1 t2, splitWs l = [t1, t2] ∧
        t1 ∈ fastBase 2 ['a', 'b'] ∧ t2 ∈ fastBase 2 ['a', 'b']) ∧
     (∀ file, generate_relation_very_fast 2 (1 / 50) ['a', 'b'] [] [0] = some file →
      splitWs (spaceJoin (veryFastBase 2 ['a', 'b'])) = veryFastBase 2 ['a', 'b'] ∧
      ∀ l ∈ file.tail, ∃ t1 t2, splitWs l = [t1, t2] ∧
        t1 ∈ veryFastBase 2 ['a', 'b'] ∧ t2 ∈ veryFastBase 2 ['a', 'b'])) := by
  have hbs : 2 ≤ 94 → PoolSample 2 ['a', 'b'] := by
    intro _
    refine ⟨rfl, by decide, by decide⟩
  have hs : ∀ x ∈ [(0 : Nat)], x < 2 * 2 := by
    intro x hx
    rw [List.mem_singleton] at hx
    omega
  exact ⟨⟨hbs, hs⟩,
    claim_C5.1 2 (1 / 50) ['a', 'b'] [0] rnd0 hbs hs,
    claim_C5.2 2 (1 / 50) ['a', 'b'] [] [0] hbs hs⟩

/-- Claim C6 as stated is false: there is no `InvalidArgument` validation.
`generate_relation_fast` with the invalid `n = 0` completes and writes a
header-only file, and `generate_set_commands` with a universe (3 letters)
smaller than the requested `elements_per_set = 5` silently clamps each
set's draw to `min(5, 3) = 3` elements (the shown draw is a legitimate
sample) and emits a complete 10-line script. -/
theorem claim_C6_counterexample :
    generate_relation_fast 0 (1 / 50) [] [] rnd0 = some [[]] ∧
    generate_set_commands 1 5 3 esABC rcA delsA =
      ["new A", "add A a", "add A b", "add A c", "see", "see A",
       "pow A", "rem A a", "del A", "see"] ∧
    (esABC 0).length = min 5 3 ∧ (esABC 0).Nodup ∧
    (∀ c ∈ esABC 0, c ∈ setLetters 3) := by
  refine ⟨?_, ?_, by decide, by decide, by decide⟩
  · rw [generate_relation_fast, fastPairs, if_neg (by norm_num)]
    rfl
  · rfl

/-- Claim C6 amended: the generators perform no argument validation:
`n = 0` silently yields a header-only relation file, and a set-script
request whose universe is smaller than `elements_per_set` is silently
clamped — each set receives `min(elements_per_set, universe_size)` `add`
lines and the full script is still produced.  No `InvalidArgument`
rejection exists on these paths. -/
theorem claim_C6 :
    (∀ d : ℚ, ∀ bs : List Char, ∀ s rnd, bs.length = 0 →
      generate_relation_fast 0 d bs s rnd = some [[]]) ∧
    (∀ n_sets eps us : Nat, ∀ es rc dels, (∀ i, (es i).length = min eps us) →
      ((List.range n_sets).flatMap
        (fun i => (es i).map (fun e => "add " ++ nameOf i ++ " " ++ String.mk [e]))).length =
        n_sets * min eps us ∧
      ∃ pre post, generate_set_commands n_sets eps us es rc dels =
        pre ++ ((List.range n_sets).flatMap
          (fun i => (es i).map (fun e => "add " ++ nameOf i ++ " " ++ String.mk [e]))) ++ post) := by
  constructor
  · intro d bs s rnd hbs
    rw [List.length_eq_zero] at hbs
    subst hbs
    rw [generate_relation_fast, fastPairs, if_neg (by norm_num)]
    rfl
  · intro n_sets eps us es rc dels hes
    constructor
    · rw [List.length_flatMap]
      simp only [Function.comp_def, List.length_map, hes]
      rw [List.map_const', List.sum_replicate, List.length_range, smul_eq_mul]
    · refine ⟨(List.range n_sets).map (fun i => "new " ++ nameOf i),
        ["see"] ++ ((List.range n_sets).map (fun i => "see " ++ nameOf i))
        ++ ((List.range n_sets).flatMap (fun i => (List.range n_sets).flatMap (fun j =>
            if nameOf i ≠ nameOf j then
              [nameOf i ++ " + " ++ nameOf j, nameOf i ++ " & " ++ nameOf j,
               nameOf i ++ " - " ++ nameOf j, nameOf i ++ " < " ++ nameOf j,
               nameOf j ++ " < " ++ nameOf i, nameOf i ++ " = " ++ nameOf j]
            else [])))
        ++ ((List.range n_sets).flatMap
            (fun i => ["pow " ++ nameOf i, "rem " ++ nameOf i ++ " " ++ String.mk [rc i]]))
        ++ (dels.map (fun nm => "del " ++ nm)) ++ ["see"], ?_⟩
      rw [generate_set_commands]
      simp only [List.append_assoc]

theorem claim_C6_witness :
    (([] : List Char).length = 0 ∧ (∀ i, (esABC i).length = min 5 3)) ∧
    (generate_relation_fast 0 (1 / 50) [] [] rnd0 = some [[]] ∧
     (((List.range 1).flatMap
        (fun i => (esABC i).map (fun e => "add " ++ nameOf i ++ " " ++ String.mk [e]))).length =
        1 * min 5 3 ∧
      ∃ pre post, generate_set_commands 1 5 3 esABC rcA delsA =
        pre ++ ((List.range 1).flatMap
          (fun i => (esABC i).map (fun e => "add " ++ nameOf i ++ " " ++ String.mk [e]))) ++ post)) :=
  ⟨⟨rfl, fun _ => rfl⟩,
    claim_C6.1 (1 / 50) [] [] rnd0 rfl,
    claim_C6.2 1 5 3 esABC rcA delsA (fun _ => rfl)⟩

/-- Claim C7 as stated is false on the ordering of the `pow` and `rem`
lines: the generator interleaves them per set (`pow A, rem A _, pow B,
rem B _`), so in a concrete run the script does not end with two adjacent
`pow` lines followed by two `rem` lines as the claim requires — the line
after the first `pow` line is a `rem` line. -/
theorem claim_C7_counterexample :
    ¬ claimC7TailShape (generate_set_commands 2 1 3 esA rcA delsA) := by
  have hscript : generate_set_commands 2 1 3 esA rcA delsA =
      ["new A", "new B", "add A a", "add B a", "see", "see A", "see B",
       "A + B", "A & B", "A - B", "A < B", "B < A", "A = B",
       "B + A", "B & A", "B - A", "B < A", "A < B", "B = A",
       "pow A", "rem A a", "pow B", "rem B a", "del A", "see"] := rfl
  rintro ⟨pre, p1, p2, r1, r2, dl, heq, _, hp2, _⟩
  have hlen : pre.length + 6 = 25 := by
    have hl := congrArg List.length heq
    rw [hscript] at hl
    simp only [List.length_append, List.length_cons, List.length_nil] at hl
    omega
  have hdrop : (generate_set_commands 2 1 3 esA rcA delsA).drop pre.length =
      [p1, p2, r1, r2, dl, "see"] := by
    rw [heq]
    exact List.drop_left _ _
  rw [hscript, show pre.length = 19 by omega] at hdrop
  have hp2v : p2 = "rem A a" := by
    have h19 : (["new A", "new B", "add A a", "add B a", "see", "see A", "see B",
       "A + B", "A & B", "A - B", "A < B", "B < A", "A = B",
       "B + A", "B & A", "B - A", "B < A", "A < B", "B = A",
       "pow A", "rem A a", "pow B", "rem B a", "del A", "see"] : List String).drop 19 =
        ["pow A", "rem A a", "pow B", "rem B a", "del A", "see"] := rfl
    rw [h19] at hdrop
    exact (List.cons.injEq _ _ _ _).mp ((List.cons.injEq _ _ _ _).mp hdrop).2 |>.1.symm
  obtain ⟨t, ht⟩ := hp2
  rw [hp2v] at ht
  have hdata : ('r' :: 'e' :: 'm' :: ' ' :: 'A' :: ' ' :: 'a' :: []) =
      'p' :: 'o' :: 'w' :: ' ' :: t.data := congrArg String.data ht
  exact absurd (List.head_eq_of_cons_eq hdata) (by decide)

/-- Claim C7 amended: for `n_sets = 2, universe_size = 3` the script is, in
order: `new A`, `new B`; the insertion lines of each set; one bare `see`;
`see A`, `see B`; the 12 pairwise-operation lines — 6 for the ordered pair
`(A, B)` (union, intersection, difference, both subset directions,
equality) followed by the 6 mirrored lines for `(B, A)`; then per set a
`pow` line immediately followed by its `rem` line (`pow A, rem A _, pow B,
rem B _`); one `del` line naming `A` or `B`; and a final bare `see`. -/
theorem claim_C7 (eps : Nat) (es : Nat → List Char) (rc : Nat → Char)
    (dels : List String) (hdel_len : dels.length = kDel 2)
    (hdel_mem : ∀ nm ∈ dels, nm ∈ [nameOf 0, nameOf 1]) :
    generate_set_commands 2 eps 3 es rc dels =
      ["new A", "new B"]
      ++ (es 0).map (fun e => "add A " ++ String.mk [e])
      ++ (es 1).map (fun e => "add B " ++ String.mk [e])
      ++ ["see", "see A", "see B"]
      ++ ["A + B", "A & B", "A - B", "A < B", "B < A", "A = B",
          "B + A", "B & A", "B - A", "B < A", "A < B", "B = A"]
      ++ ["pow A", "rem A " ++ String.mk [rc 0], "pow B", "rem B " ++ String.mk [rc 1]]
      ++ dels.map (fun nm => "del " ++ nm) ++ ["see"] ∧
    (dels = ["A"] ∨ dels = ["B"]) := by
  constructor
  · rw [generate_set_commands]
    simp only [show List.range 2 = [0, 1] from rfl, List.flatMap_cons, List.flatMap_nil,
      List.map_cons, List.map_nil, List.append_nil, List.append_assoc, List.nil_append,
      List.cons_append]
    rfl
  · rw [kDel] at hdel_len
    norm_num at hdel_len
    obtain ⟨x, hx⟩ := List.length_eq_one.mp hdel_len
    subst hx
    have := hdel_mem x (List.mem_singleton_self x)
    rcases List.mem_cons.mp this with h | h
    · exact Or.inl (by rw [h]; rfl)
    · rw [List.mem_singleton] at h
      exact Or.inr (by rw [h]; rfl)

theorem claim_C7_witness :
    (delsA.length = kDel 2 ∧ ∀ nm ∈ delsA, nm ∈ [nameOf 0, nameOf 1]) ∧
    (generate_set_commands 2 1 3 esA rcA delsA =
      ["new A", "new B"]
      ++ (esA 0).map (fun e => "add A " ++ String.mk [e])
      ++ (esA 1).map (fun e => "add B " ++ String.mk [e])
      ++ ["see", "see A", "see B"]
      ++ ["A + B", "A & B", "A - B", "A < B", "B < A", "A = B",
          "B + A", "B & A", "B - A", "B < A", "A < B", "B = A"]
      ++ ["pow A", "rem A " ++ String.mk [rcA 0], "pow B", "rem B " ++ String.mk [rcA 1]]
      ++ delsA.map (fun nm => "del " ++ nm) ++ ["see"] ∧
     (delsA = ["A"] ∨ delsA = ["B"])) := by
  have h1 : delsA.length = kDel 2 := rfl
  have h2 : ∀ nm ∈ delsA, nm ∈ [nameOf 0, nameOf 1] := by decide
  exact ⟨⟨h1, h2⟩, claim_C7 1 esA rcA delsA h1 h2⟩

lemma del_prefix_injective : Function.Injective (fun nm : String => "del " ++ nm) := by
  intro a b h
  have hd : ('d' :: 'e' :: 'l' :: ' ' :: a.data) = 'd' :: 'e' :: 'l' :: ' ' :: b.data := by
    have := congrArg String.data h
    rwa [del_line_data, del_line_data] at this
  apply String.ext
  exact List.tail_eq_of_cons_eq (List.tail_eq_of_cons_eq
    (List.tail_eq_of_cons_eq (List.tail_eq_of_cons_eq hd)))

/-- Claim C10: for every `n_sets ≥ 1` the script contains exactly
`max(n_sets // 2, 1)` `del` lines — they are the only `del`-shaped lines,
they are pairwise distinct, each names a previously created set, and even
with a single set the (then unique) created set `A` is deleted. -/
theorem claim_C10 (n_sets eps us : Nat) (es : Nat → List Char) (rc : Nat → Char)
    (dels : List String) (hn : 1 ≤ n_sets) (hlen : dels.length = kDel n_sets)
    (hnd : dels.Nodup) (hmem : ∀ nm ∈ dels, nm ∈ (List.range n_sets).map nameOf) :
    kDel n_sets = max (n_sets / 2) 1 ∧
    ∃ pre, generate_set_commands n_sets eps us es rc dels =
        pre ++ dels.map (fun nm => "del " ++ nm) ++ ["see"] ∧
      (dels.map (fun nm => "del " ++ nm)).length = max (n_sets / 2) 1 ∧
      (dels.map (fun nm => "del " ++ nm)).Nodup ∧
      (∀ nm ∈ dels, nm ∈ (List.range n_sets).map nameOf) ∧
      (∀ l ∈ pre, ∀ nm, l ≠ "del " ++ nm) ∧
      (∀ nm, ("see" : String) ≠ "del " ++ nm) ∧
      (n_sets = 1 → dels.map (fun nm => "del " ++ nm) = ["del A"]) := by
  have hmax : kDel n_sets = max (n_sets / 2) 1 := by
    rw [kDel]
    split <;> omega
  refine ⟨hmax, ((List.range n_sets).map (fun i => "new " ++ nameOf i))
      ++ ((List.range n_sets).flatMap
          (fun i => (es i).map (fun e => "add " ++ nameOf i ++ " " ++ String.mk [e])))
      ++ ["see"] ++ ((List.range n_sets).map (fun i => "see " ++ nameOf i))
      ++ ((List.range n_sets).flatMap (fun i => (List.range n_sets).flatMap (fun j =>
          if nameOf i ≠ nameOf j then
            [nameOf i ++ " + " ++ nameOf j, nameOf i ++ " & " ++ nameOf j,
             nameOf i ++ " - " ++ nameOf j, nameOf i ++ " < " ++ nameOf j,
             nameOf j ++ " < " ++ nameOf i, nameOf i ++ " = " ++ nameOf j]
          else [])))
      ++ ((List.range n_sets).flatMap
          (fun i => ["pow " ++ nameOf i, "rem " ++ nameOf i ++ " " ++ String.mk [rc i]])),
    ?_, ?_, ?_, hmem, ?_, see_not_del, ?_⟩
  · rw [generate_set_commands]
  · rw [List.length_map, hlen, hmax]
  · exact hnd.map del_prefix_injective
  · intro l hl nm
    rcases List.mem_append.mp hl with hl | hl
    rotate_left
    · rcases List.mem_flatMap.mp hl with ⟨i, _, hl⟩
      rcases List.mem_cons.mp hl with hl | hl
      · rw [hl]
        exact pow_line_not_del i nm
      · rw [List.mem_singleton] at hl
        rw [hl]
        exact rem_line_not_del i (rc i) nm
    rcases List.mem_append.mp hl with hl | hl
    rotate_left
    · rcases List.mem_flatMap.mp hl with ⟨i, _, hl⟩
      rcases List.mem_flatMap.mp hl with ⟨j, _, hl⟩
      split at hl
      · have hsep : ∀ sep : String, (∃ r, sep.data = ' ' :: r) →
            ∀ a b : Nat, (nameOf a ++ sep ++ nameOf b) ≠ "del " ++ nm :=
          fun sep hs a b => op_line_not_del a b sep hs nm
        simp only [List.mem_cons, List.not_mem_nil, or_false] at hl
        rcases hl with hl | hl | hl | hl | hl | hl
        · rw [hl]; exact hsep (" + ") ⟨_, rfl⟩ i j
        · rw [hl]; exact hsep (" & ") ⟨_, rfl⟩ i j
        · rw [hl]; exact hsep (" - ") ⟨_, rfl⟩ i j
        · rw [hl]; exact hsep (" < ") ⟨_, rfl⟩ i j
        · rw [hl]; exact hsep (" < ") ⟨_, rfl⟩ j i
        · rw [hl]; exact hsep (" = ") ⟨_, rfl⟩ i j
      · exact absurd hl (List.not_mem_nil l)
    rcases List.mem_append.mp hl with hl | hl
    rotate_left
    · rcases List.mem_map.mp hl with ⟨i, _, hl⟩
      rw [← hl]
      exact see_line_not_del i nm
    rcases List.mem_append.mp hl with hl | hl
    rotate_left
    · rw [List.mem_singleton] at hl
      rw [hl]
      exact see_not_del nm
    rcases List.mem_append.mp hl with hl | hl
    · rcases List.mem_map.mp hl with ⟨i, _, hl⟩
      rw [← hl]
      exact new_line_not_del i nm
    · rcases List.mem_flatMap.mp hl with ⟨i, _, hl⟩
      rcases List.mem_map.mp hl with ⟨e, _, hl⟩
      rw [← hl]
      exact add_line_not_del i e nm
  · intro h1
    subst h1
    rw [kDel] at hlen
    norm_num at hlen
    obtain ⟨x, hx⟩ := List.length_eq_one.mp hlen
    subst hx
    have hxa := hmem x (List.mem_singleton_self x)
    have hxA : x = nameOf 0 := by
      rw [show List.range 1 = [0] from rfl, List.map_cons, List.map_nil,
        List.mem_singleton] at hxa
      exact hxa
    rw [List.map_cons, List.map_nil, hxA]
    rfl

theorem claim_C10_witness :
    ((1 : Nat) ≤ 1 ∧ delsA.length = kDel 1 ∧ delsA.Nodup ∧
      ∀ nm ∈ delsA, nm ∈ (List.range 1).map nameOf) ∧
    (kDel 1 = max (1 / 2) 1 ∧
     ∃ pre, generate_set_commands 1 1 3 esA rcA delsA =
         pre ++ delsA.map (fun nm => "del " ++ nm) ++ ["see"] ∧
       (delsA.map (fun nm => "del " ++ nm)).length = max (1 / 2) 1 ∧
       (delsA.map (fun nm => "del " ++ nm)).Nodup ∧
       (∀ nm ∈ delsA, nm ∈ (List.range 1).map nameOf) ∧
       (∀ l ∈ pre, ∀ nm, l ≠ "del " ++ nm) ∧
       (∀ nm, ("see" : String) ≠ "del " ++ nm) ∧
       ((1 : Nat) = 1 → delsA.map (fun nm => "del " ++ nm) = ["del A"])) := by
  have h1 : delsA.length = kDel 1 := rfl
  have h2 : delsA.Nodup := List.nodup_singleton _
  have h3 : ∀ nm ∈ delsA, nm ∈ (List.range 1).map nameOf := by decide
  exact ⟨⟨le_refl 1, h1, h2, h3⟩, claim_C10 1 1 3 esA rcA delsA (le_refl 1) h1 h2 h3⟩
